import Mathlib

/-!
Verification of the diff-position resolution and comment-delivery pipeline
of the code reviewer's GitHub platform implementation
(`src/platforms/github.ts`, class `GitHubPlatform`).

The pure algorithms (`parseDiffPositionMap`, `findPositionInMap`,
`prepareComments`, the Markdown formatting helpers) are embedded directly as
Lean functions.  JavaScript `Map` objects are embedded as association lists in
insertion order (`mapGet`/`mapSet` below mirror `Map.get`/`Map.set`: `set` on
an existing key updates the value in place, otherwise appends at the end,
exactly the iteration-order semantics of a JS `Map`).  JavaScript numbers that
can go negative (`currentNewLine` becomes `newStart - 1`) are embedded as
`Int`; counters that only ever increase from 0 are `Nat`.

The network-facing delivery pipeline is embedded as a reader-state
interpreter: oracles (one response stream per endpoint: the pull-request GET
endpoint, the review POST endpoint, the top-level issue-comment POST endpoint)
decide whether each `fetch` resolves OK, resolves with a failing HTTP status,
or throws; the interpreter records every request and every rate-limit pause in
an event trace and propagates thrown errors exactly as the `try`/`catch`
structure of the source does.
-/

/-! ## Association-list model of a JavaScript `Map` -/

/-- `Map.get`: value of the first (and, for maps built by `mapSet`, only)
entry with the given key. -/
def mapGet {κ α : Type} [DecidableEq κ] : List (κ × α) → κ → Option α
  | [], _ => none
  | (k', v) :: rest, k => if k' = k then some v else mapGet rest k

/-- `Map.set`: update an existing key in place (keeping its position in
iteration order), otherwise append a new entry at the end. -/
def mapSet {κ α : Type} [DecidableEq κ] : List (κ × α) → κ → α → List (κ × α)
  | [], k, v => [(k, v)]
  | (k', v') :: rest, k, v =>
    if k' = k then (k, v) :: rest else (k', v') :: mapSet rest k v

/-! ## Diff parsing (`parseDiffPositionMap`, lines 387-454)

A diff line is processed as its list of characters.  `classify` reproduces
the branch structure of the `for` loop body: the checks are performed in
source order (`diff --git`, then `---`/`+++`, then `@@`, then `+`, then `-`,
else context). -/

/-- `line.startsWith(prefix)` on character lists. -/
def startsWithCl : List Char → List Char → Bool
  | [], _ => true
  | _ :: _, [] => false
  | p :: ps, c :: cs => p == c && startsWithCl ps cs

/-- Characters that JavaScript's `.` does not match (line terminators). -/
def isLineTerm (c : Char) : Bool :=
  c == '\n' || c == '\r' || c == '\u2028' || c == '\u2029'

/-- Leftmost match of the file-header capture `/b\/(.+)$/` (line 401):
scan for the first occurrence of `b/` whose entire remainder is nonempty and
free of line terminators (so that `.+` can reach `$`), and capture that
remainder. -/
def searchBPath : List Char → Option String
  | [] => none
  | c0 :: rest =>
    match c0, rest with
    | 'b', '/' :: c :: tl =>
      if (c :: tl).all (fun ch => !isLineTerm ch) then some (String.mk (c :: tl))
      else searchBPath rest
    | _, _ => searchBPath rest

/-- Parse one or more decimal digits (`\d+`), returning the value and rest. -/
def digitsCl (l : List Char) : Option (Nat × List Char) :=
  let pre := l.takeWhile Char.isDigit
  if pre.isEmpty then none
  else some (pre.foldl (fun n c => n * 10 + (c.toNat - 48)) 0, l.dropWhile Char.isDigit)

/-- Try to match `@@ -\d+,\d+ \+(\d+),\d+ @@` at the head of the list,
returning the captured `newStart` (line 419). -/
def matchHunkAt (l : List Char) : Option Nat :=
  match l with
  | '@' :: '@' :: ' ' :: '-' :: r0 =>
    match digitsCl r0 with
    | none => none
    | some (_, r1) =>
      match r1 with
      | ',' :: r2 =>
        match digitsCl r2 with
        | none => none
        | some (_, r3) =>
          match r3 with
          | ' ' :: '+' :: r4 =>
            match digitsCl r4 with
            | none => none
            | some (newStart, r5) =>
              match r5 with
              | ',' :: r6 =>
                match digitsCl r6 with
                | none => none
                | some (_, r7) =>
                  match r7 with
                  | ' ' :: '@' :: '@' :: _ => some newStart
                  | _ => none
              | _ => none
          | _ => none
      | _ => none
  | _ => none

/-- Leftmost match of the hunk-header regex anywhere in the line. -/
def searchHunk : List Char → Option Nat
  | [] => none
  | l@(_ :: rest) =>
    match matchHunkAt l with
    | some n => some n
    | none => searchHunk rest

/-- The classification a diff line receives in the parser's loop body,
following the source's branch order. -/
inductive LineKind where
  | fileHeader : Option String → LineKind
  | pathMarker : LineKind
  | hunkHeader : Option Nat → LineKind
  | added : LineKind
  | removed : LineKind
  | context : LineKind
deriving DecidableEq

/-- Classify one diff line exactly as the branch cascade of lines 400-450:
`diff --git` (with its `b/` capture), then `---`/`+++`, then `@@` (with the
hunk-header capture), then `+` (a `+++` line was already consumed by the
path-marker branch), then `-`, else context. -/
def classify (l : List Char) : LineKind :=
  if startsWithCl "diff --git".data l then .fileHeader (searchBPath l)
  else if startsWithCl "---".data l || startsWithCl "+++".data l then .pathMarker
  else if startsWithCl "@@".data l then .hunkHeader (searchHunk l)
  else if startsWithCl "+".data l then .added
  else if startsWithCl "-".data l then .removed
  else .context

/-- The running parse context of `parseDiffPositionMap`. -/
structure ParseState where
  positionMap : List (String × List (Int × Nat))
  currentFile : String
  currentPosition : Nat
  currentNewLine : Int
  inHunk : Bool
deriving DecidableEq

/-- One loop iteration of `parseDiffPositionMap` (lines 396-451), acting on
the classified line. -/
def parseStep (s : ParseState) (k : LineKind) : ParseState :=
  match k with
  | .fileHeader (some path) =>
    { positionMap := mapSet s.positionMap path []
      currentFile := path
      currentPosition := 0
      currentNewLine := 0
      inHunk := false }
  | .fileHeader none => s
  | .pathMarker => s
  | .hunkHeader (some newStart) =>
    { s with currentNewLine := (newStart : Int) - 1, currentPosition := 0, inHunk := true }
  | .hunkHeader none => s
  | .added =>
    if s.inHunk then
      let pos := s.currentPosition + 1
      let nl := s.currentNewLine + 1
      { s with
        currentPosition := pos
        currentNewLine := nl
        positionMap :=
          match mapGet s.positionMap s.currentFile with
          | some fileMap => mapSet s.positionMap s.currentFile (mapSet fileMap nl pos)
          | none => s.positionMap }
    else s
  | .removed => s
  | .context =>
    if s.inHunk then { s with currentNewLine := s.currentNewLine + 1, currentPosition := 0 }
    else s

/-- `diffText.split('\n')` as lists of characters. -/
def splitLinesAux (acc : List Char) : List Char → List (List Char)
  | [] => [acc.reverse]
  | c :: cs => if c = '\n' then acc.reverse :: splitLinesAux [] cs else splitLinesAux (c :: acc) cs

/-- Split a diff text into its lines. -/
def splitLines (s : String) : List (List Char) := splitLinesAux [] s.data

/-- Initial parse context: empty map, empty current file, counters zero,
not inside a hunk. -/
def parseInit : ParseState :=
  { positionMap := [], currentFile := "", currentPosition := 0, currentNewLine := 0, inHunk := false }

/-- `parseDiffPositionMap(diffText)` (lines 387-454): a single left-to-right
pass over the split lines yielding file -> (new-file line -> position). -/
def parseDiffPositionMap (diffText : String) : List (String × List (Int × Nat)) :=
  ((splitLines diffText).foldl (fun s l => parseStep s (classify l)) parseInit).positionMap

/-! ## Position resolution (`findPositionInMap`, lines 473-507) -/

/-- One step of the nearest-neighbour scan (lines 494-500): the accumulator
holds `(closestPosition, minDistance)`, with `none` for the initial `null`
and `Infinity`; an entry replaces the accumulator when
`distance < minDistance && distance <= 3`. -/
def nearStep (lineNumber : Int) (acc : Option Nat × Option Nat) (e : Int × Nat) :
    Option Nat × Option Nat :=
  let d := (e.1 - lineNumber).natAbs
  match acc.2 with
  | none => if d ≤ 3 then (some e.2, some d) else acc
  | some m => if d < m ∧ d ≤ 3 then (some e.2, some d) else acc

/-- `findPositionInMap(filePath, lineNumber, positionMap)`: exact lookup
first, otherwise nearest-neighbour scan over the file's entries in iteration
order. -/
def findPositionInMap (filePath : String) (lineNumber : Int)
    (positionMap : List (String × List (Int × Nat))) : Option Nat :=
  match mapGet positionMap filePath with
  | none => none
  | some fileMap =>
    match mapGet fileMap lineNumber with
    | some p => some p
    | none => (fileMap.foldl (nearStep lineNumber) (none, none)).1

/-! ## Data model (`ReviewResult` findings, planned comments)

`Issue.line`, `Issue.suggestion` and `Issue.code` are optional in the source
(`line?: number` etc.); JavaScript truthiness tests on them (`if (issue.line)`,
`if (issue.suggestion)`) are embedded by also treating `0` (for the line) and
the empty string (for the text fields) as absent at each use site. -/

/-- `issue.severity`: one of `error`, `warning`, `info`. -/
inductive Severity where
  | error : Severity
  | warning : Severity
  | info : Severity
deriving DecidableEq

/-- One finding (`ReviewResult['issues'][0]`). -/
structure Issue where
  line : Option Int
  severity : Severity
  message : String
  suggestion : Option String
  code : Option String
deriving DecidableEq

/-- One file's review result. -/
structure ReviewResult where
  file : String
  issues : List Issue
deriving DecidableEq

/-- The JavaScript truthiness of `issue.line` together with its value:
`some l` iff `issue.line` is defined and nonzero. -/
def issueLine (i : Issue) : Option Int :=
  match i.line with
  | some l => if l = 0 then none else some l
  | none => none

/-- A planned positioned line comment (`{path, position, body}`). -/
structure LineComment where
  path : String
  position : Nat
  body : String
deriving DecidableEq, Repr

/-- A planned file-level comment group (`{file, issues}`). -/
structure FileComment where
  file : String
  issues : List Issue
deriving DecidableEq

/-- A finding that could not be resolved to a position (`{file, line, issue}`). -/
structure SkippedComment where
  file : String
  line : Int
  issue : Issue
deriving DecidableEq

/-! ## Markdown formatting helpers (lines 764-822) -/

/-- The severity emoji map used by both formatters. -/
def severityEmoji : Severity → String
  | .error => "❌"
  | .warning => "⚠️"
  | .info => "ℹ️"

/-- `formatIssueComment(issue)` (lines 764-782). -/
def formatIssueComment (issue : Issue) : String :=
  let base := severityEmoji issue.severity ++ " **" ++ issue.message ++ "**\n\n"
  let withSuggestion :=
    match issue.suggestion with
    | some s => if s.isEmpty then base else base ++ "💡 建议: " ++ s ++ "\n\n"
    | none => base
  match issue.code with
  | some c => if c.isEmpty then withSuggestion
              else withSuggestion ++ "示例代码:\n```\n" ++ c ++ "\n```\n"
  | none => withSuggestion

/-- One issue block of `formatFileLevelComment` (lines 804-819), without the
`---` separator. -/
def issueBlock (issue : Issue) : String :=
  let base := severityEmoji issue.severity ++ " **" ++ issue.message ++ "**\n\n"
  let withSuggestion :=
    match issue.suggestion with
    | some s => if s.isEmpty then base else base ++ "💡 建议: " ++ s ++ "\n\n"
    | none => base
  match issue.code with
  | some c => if c.isEmpty then withSuggestion
              else withSuggestion ++ "```\n" ++ c ++ "\n```\n\n"
  | none => withSuggestion

/-- The issue blocks joined by the `---` separator placed after every block
except the last. -/
def issueBlocks : List Issue → String
  | [] => ""
  | [i] => issueBlock i
  | i :: rest => issueBlock i ++ "---\n\n" ++ issueBlocks rest

/-- `formatFileLevelComment(filePath, issues)` (lines 787-822): severity
counts in the header (in `error`, `warning`, `info` entry order, omitting
zero counts), then the issue blocks. -/
def formatFileLevelComment (filePath : String) (issues : List Issue) : String :=
  let errs := (issues.filter (fun i => i.severity = .error)).length
  let warns := (issues.filter (fun i => i.severity = .warning)).length
  let infos := (issues.filter (fun i => i.severity = .info)).length
  let parts :=
    (if errs > 0 then ["❌ " ++ toString errs ++ "个错误"] else []) ++
    (if warns > 0 then ["⚠️ " ++ toString warns ++ "个警告"] else []) ++
    (if infos > 0 then ["ℹ️ " ++ toString infos ++ "个信息"] else [])
  "## 📄 " ++ filePath ++ " (" ++ String.intercalate ", " parts ++ ")\n\n" ++ issueBlocks issues

/-- The final summary body built by `submitFinalSummary` (lines 740-759). -/
def summaryText (results : List ReviewResult) (lineCommentCount fileCommentCount skippedCount : Nat) :
    String :=
  let totalFiles := results.length
  let totalIssues := (results.map (fun r => r.issues.length)).sum
  "## 📊 AI代码审查完成\n\n" ++
  "**统计信息**\n" ++
  "- 审查文件数: " ++ toString totalFiles ++ "\n" ++
  "- 发现问题数: " ++ toString totalIssues ++ "\n" ++
  "- 行评论数: " ++ toString lineCommentCount ++ "\n" ++
  "- 文件评论数: " ++ toString fileCommentCount ++ "\n" ++
  "- 跳过评论数: " ++ toString skippedCount ++ "\n\n" ++
  "**审查结果已提交，请查看上面的详细评论。**"

/-- One listed line of a skipped-comment escalation body (line 722-724). -/
def skippedLineText (item : Int × Issue) : String :=
  "- 第 " ++ toString item.1 ++ " 行: " ++ item.2.message

/-- The per-file escalation comment body for skipped findings (lines 726-728). -/
def skippedFileCommentText (filePath : String) (issues : List (Int × Issue)) : String :=
  "## ⚠️ " ++ filePath ++ " - 行评论位置问题\n\n" ++
  "以下评论因无法找到准确的diff位置，在此统一列出：\n\n" ++
  String.intercalate "\n" (issues.map skippedLineText)

/-! ## Comment planning (`prepareComments`, lines 512-570) -/

/-- The mutable accumulators of `prepareComments`: the `lineComments` array,
the `fileCommentsMap` (a JS `Map`), and the `skippedComments` array. -/
structure PrepAcc where
  lineComments : List LineComment
  fileMap : List (String × List Issue)
  skippedComments : List SkippedComment
deriving DecidableEq

/-- The body of `prepareComments`' loop over one file's line-anchored
issues (lines 538-555): resolve the issue's (truthy) line to a position,
pushing to `lineComments` on success and to `skippedComments` on failure. -/
def prepIssue (positionMap : List (String × List (Int × Nat))) (file : String)
    (a : PrepAcc) (issue : Issue) : PrepAcc :=
  match issueLine issue with
  | some l =>
    match findPositionInMap file l positionMap with
    | some p =>
      { a with lineComments := a.lineComments ++ [⟨file, p, formatIssueComment issue⟩] }
    | none =>
      { a with skippedComments := a.skippedComments ++ [⟨file, l, issue⟩] }
  | none => a

/-- Processing of a single `ReviewResult` inside `prepareComments`' outer
loop: split the issues into those with a (truthy) line number and the rest,
resolve each line issue to a position, and `Map.set` the file's general
issues when there are any. -/
def prepResult (positionMap : List (String × List (Int × Nat)))
    (acc : PrepAcc) (result : ReviewResult) : PrepAcc :=
  let lineIssues := result.issues.filter (fun i => (issueLine i).isSome)
  let generalIssues := result.issues.filter (fun i => (issueLine i).isNone)
  let acc1 := lineIssues.foldl (prepIssue positionMap result.file) acc
  if generalIssues.isEmpty then acc1
  else { acc1 with fileMap := mapSet acc1.fileMap result.file generalIssues }

/-- The planner's output (`{lineComments, fileComments, skippedComments}`). -/
structure CommentPlan where
  lineComments : List LineComment
  fileComments : List FileComment
  skippedComments : List SkippedComment
deriving DecidableEq

/-- `prepareComments(results, positionMap)` (lines 512-570). -/
def prepareComments (results : List ReviewResult)
    (positionMap : List (String × List (Int × Nat))) : CommentPlan :=
  let acc := results.foldl (prepResult positionMap) ⟨[], [], []⟩
  ⟨acc.lineComments, acc.fileMap.map (fun e => ⟨e.1, e.2⟩), acc.skippedComments⟩

/-! ## The delivery pipeline as an oracle-driven interpreter

Every `fetch` in the source hits one of three endpoints: the pull-request
GET endpoint (PR info / diff), the review POST endpoint
(`/pulls/:id/reviews`), and the top-level comment POST endpoint
(`/issues/:id/comments`).  An `Oracles` value fixes, per endpoint and call
number, whether the call resolves with `response.ok`, resolves with a failing
HTTP status, or throws (network error).  The interpreter threads a `NetSt`
(per-endpoint call counters plus the event trace) and an `Except PErr` result
that models a thrown JavaScript error. -/

/-- What the network does to one `fetch` call. -/
inductive HttpResult where
  | ok : HttpResult
  | err : Nat → HttpResult
  | exn : HttpResult
deriving DecidableEq

/-- A `fetch` that did not throw: `response.ok`, or a failing status. -/
inductive NetResp where
  | ok : NetResp
  | err : Nat → NetResp
deriving DecidableEq

/-- A thrown error: an `Error` built from a failing HTTP status, or the
exception thrown by `fetch` itself. -/
inductive PErr where
  | apiError : Nat → PErr
  | netExn : PErr
deriving DecidableEq, Repr

/-- Observable actions of the pipeline: the requests it issues and the
rate-limit pauses it takes. -/
inductive Event where
  | fetchDiff : Event
  | fetchPr : Event
  | batchSubmit : List LineComment → Event
  | singleSubmit : LineComment → Event
  | topComment : String → Event
  | pause : Nat → Event
deriving DecidableEq, Repr

/-- Per-endpoint response streams. -/
structure Oracles where
  getO : Nat → HttpResult
  reviewO : Nat → HttpResult
  topO : Nat → HttpResult

/-- Interpreter state: how many calls each endpoint has received, and the
trace of events so far. -/
structure NetSt where
  getIdx : Nat
  reviewIdx : Nat
  topIdx : Nat
  trace : List Event
deriving DecidableEq, Repr

/-- The pipeline monad: reader (oracles) + state (call counters, trace) +
exceptions (thrown JavaScript errors). -/
def M (α : Type) : Type := Oracles → NetSt → NetSt × Except PErr α

instance : Monad M where
  pure a := fun _ s => (s, .ok a)
  bind x f := fun o s =>
    match x o s with
    | (s', .ok a) => f a o s'
    | (s', .error e) => (s', .error e)

/-- `throw` of a JavaScript error. -/
def throwM {α : Type} (e : PErr) : M α := fun _ s => (s, .error e)

/-- `try x catch (e) h`. -/
def mtry {α : Type} (x : M α) (h : PErr → M α) : M α := fun o s =>
  match x o s with
  | (s', .ok a) => (s', .ok a)
  | (s', .error e) => h e o s'

/-- A `fetch` against the pull-request GET endpoint: record the request,
consume the next response of `getO`, and throw on a network error. -/
def getCall (ev : Event) : M NetResp := fun o s =>
  let s' := { s with getIdx := s.getIdx + 1, trace := s.trace ++ [ev] }
  match o.getO s.getIdx with
  | .ok => (s', .ok .ok)
  | .err status => (s', .ok (.err status))
  | .exn => (s', .error .netExn)

/-- A `fetch` against the review POST endpoint. -/
def reviewCall (ev : Event) : M NetResp := fun o s =>
  let s' := { s with reviewIdx := s.reviewIdx + 1, trace := s.trace ++ [ev] }
  match o.reviewO s.reviewIdx with
  | .ok => (s', .ok .ok)
  | .err status => (s', .ok (.err status))
  | .exn => (s', .error .netExn)

/-- A `fetch` against the top-level comment POST endpoint. -/
def topCall (body : String) : M NetResp := fun o s =>
  let s' := { s with topIdx := s.topIdx + 1, trace := s.trace ++ [Event.topComment body] }
  match o.topO s.topIdx with
  | .ok => (s', .ok .ok)
  | .err status => (s', .ok (.err status))
  | .exn => (s', .error .netExn)

/-- `await new Promise(resolve => setTimeout(resolve, ms))`. -/
def mpause (ms : Nat) : M Unit := fun _ s =>
  ({ s with trace := s.trace ++ [Event.pause ms] }, .ok ())

/-! ## Pipeline stages (lines 123-759)

Each stage mirrors one method of `GitHubPlatform`.  The strings returned by
the two prerequisite fetches (the diff text and the head commit SHA) are
parameters of the model; a `try { ... } catch (e) { log; throw e }` wrapper
that only logs and rethrows is the identity and is noted but not reified. -/

/-- `getPullRequestDiff` (lines 342-358): GET the diff; throw on a failing
status. -/
def getPullRequestDiff (diffText : String) : M String := do
  let r ← getCall .fetchDiff
  match r with
  | .ok => pure diffText
  | .err status => throwM (.apiError status)

/-- `getHeadCommitSha` (lines 363-382): GET the PR info; throw on a failing
status.  (The same inline fetch opens `submitReviewComment`, lines 128-145.) -/
def getHeadCommitSha (sha : String) : M String := do
  let r ← getCall .fetchPr
  match r with
  | .ok => pure sha
  | .err status => throwM (.apiError status)

/-- `submitReviewSummary` (lines 218-246): POST one top-level comment; throw
on a failing status (the surrounding catch only logs and rethrows). -/
def submitReviewSummary (summary : String) : M Unit := do
  let r ← topCall summary
  match r with
  | .ok => pure ()
  | .err status => throwM (.apiError status)

/-- `submitFileLevelComment` (lines 208-213): prefix the comment with a
header naming the file (and the line when truthy) and submit it as a
top-level comment. -/
def submitFileLevelComment (filePath : String) (comment : String) (line : Option Int) : M Unit :=
  let lineInfo :=
    match line with
    | some l => if l = 0 then "" else " (第 " ++ toString l ++ " 行)"
    | none => ""
  submitReviewSummary ("## 📄 " ++ filePath ++ lineInfo ++ "\n\n" ++ comment)

/-- `calculatePositionForLine` (lines 459-468): fetch the diff, parse it and
resolve; any thrown error is caught and becomes `null`. -/
def calculatePositionForLine (diffText : String) (filePath : String) (lineNumber : Int) :
    M (Option Nat) :=
  mtry
    (do
      let dt ← getPullRequestDiff diffText
      pure (findPositionInMap filePath lineNumber (parseDiffPositionMap dt)))
    (fun _ => pure none)

/-- `submitReviewComment` (lines 123-203): fetch the head commit, then for a
truthy line number try a positioned review comment, falling back to a
file-level comment when the position is unavailable, the review request is
rejected, or anything in the inner block throws; without a truthy line
number submit a file-level comment directly.  The outer catch only logs and
rethrows. -/
def submitReviewComment (diffText sha : String) (filePath : String) (line : Option Int)
    (comment : String) : M Unit := do
  let _commitId ← getHeadCommitSha sha
  match line with
  | some l =>
    if l = 0 then submitFileLevelComment filePath comment none
    else
      mtry
        (do
          let posOpt ← calculatePositionForLine diffText filePath l
          match posOpt with
          | some p => do
            let r ← reviewCall (.singleSubmit ⟨filePath, p, comment⟩)
            match r with
            | .ok => pure ()
            | .err _ => submitFileLevelComment filePath comment (some l)
          | none => submitFileLevelComment filePath comment (some l))
        (fun _ => submitFileLevelComment filePath comment (some l))
  | none => submitFileLevelComment filePath comment none

/-- One iteration of the fallback loop of `submitCommentsIndividually`
(lines 644-677): POST the single comment as its own review; a failing status
is only logged and the 500 ms pause still happens; a thrown error is caught
(skipping the pause). -/
def submitOneIndividually (c : LineComment) : M Unit :=
  mtry
    (do
      let _r ← reviewCall (.singleSubmit c)
      mpause 500)
    (fun _ => pure ())

/-- `submitCommentsIndividually` (lines 638-678). -/
def submitCommentsIndividually : List LineComment → String → M Unit
  | [], _ => pure ()
  | c :: rest, commitId => do
    submitOneIndividually c
    submitCommentsIndividually rest commitId

/-- One iteration's try/catch of `submitLineCommentsInBatches`
(lines 589-624): submit the batch as one review; on success count the batch
as succeeded; on a failing status count it as failed and fall back to
individual submission exactly when the status is 422; a thrown error is
caught and counts the batch as failed. -/
def submitOneBatch (batch : List LineComment) (commitId : String) (succCount failCount : Nat) :
    M (Nat × Nat) :=
  mtry
    (do
      let r ← reviewCall (.batchSubmit batch)
      match r with
      | .ok => pure (succCount + batch.length, failCount)
      | .err status => do
        if status = 422 then submitCommentsIndividually batch commitId else pure ()
        pure (succCount, failCount + batch.length))
    (fun _ => pure (succCount, failCount + batch.length))

/-- The inter-batch pause (lines 626-629): pause 1500 ms exactly when
`i + batchSize < comments.length`, i.e. when more than ten comments remain. -/
def interBatchPause (remaining : List LineComment) : M Unit :=
  if remaining.length > 10 then mpause 1500 else pure ()

/-- The batching loop of `submitLineCommentsInBatches` (lines 585-630),
with an explicit fuel argument standing in for the `for` loop's bound (the
fuel is initialised to the list length, which always suffices since every
iteration drops ten elements; the fuel-exhausted case is unreachable).
Each iteration processes `comments.take 10` through `submitOneBatch` and
pauses 1500 ms when more comments remain (`i + batchSize < comments.length`). -/
def submitLineCommentsInBatchesGo (commitId : String) :
    Nat → List LineComment → Nat → Nat → M (Nat × Nat)
  | _, [], succCount, failCount => pure (succCount, failCount)
  | 0, _ :: _, succCount, failCount => pure (succCount, failCount)
  | fuel + 1, c :: rest, succCount, failCount => do
    let counts ← submitOneBatch ((c :: rest).take 10) commitId succCount failCount
    interBatchPause (c :: rest)
    submitLineCommentsInBatchesGo commitId fuel ((c :: rest).drop 10) counts.1 counts.2

/-- `submitLineCommentsInBatches` (lines 575-633): batch size 10, success
and failure counters starting at zero.  The returned pair models the final
debug log of the counters; the caller discards it. -/
def submitLineCommentsInBatches (comments : List LineComment) (commitId : String) :
    M (Nat × Nat) :=
  submitLineCommentsInBatchesGo commitId comments.length comments 0 0

/-- `submitFileComments` (lines 683-693): one top-level comment per file
group, followed by a 1000 ms pause; a thrown error propagates. -/
def submitFileComments : List FileComment → M Unit
  | [] => pure ()
  | fc :: rest => do
    submitReviewSummary (formatFileLevelComment fc.file fc.issues)
    mpause 1000
    submitFileComments rest

/-- The grouping `Map` construction of `handleSkippedComments`
(lines 708-718): group the skipped entries by file in first-seen order,
appending within a file. -/
def mapPush {κ α : Type} [DecidableEq κ] : List (κ × List α) → κ → α → List (κ × List α)
  | [], k, v => [(k, [v])]
  | (k', vs) :: rest, k, v =>
    if k' = k then (k', vs ++ [v]) :: rest else (k', vs) :: mapPush rest k v

/-- The per-file escalation loop of `handleSkippedComments` (lines 721-734). -/
def handleSkippedGo : List (String × List (Int × Issue)) → M Unit
  | [] => pure ()
  | (filePath, items) :: rest => do
    submitReviewSummary (skippedFileCommentText filePath items)
    mpause 1000
    handleSkippedGo rest

/-- `handleSkippedComments` (lines 698-735). -/
def handleSkippedComments (skippedComments : List SkippedComment) : M Unit :=
  if skippedComments.length = 0 then pure ()
  else
    handleSkippedGo
      (skippedComments.foldl (fun m c => mapPush m c.file (c.line, c.issue)) [])

/-- `submitFinalSummary` (lines 740-759). -/
def submitFinalSummary (results : List ReviewResult)
    (lineCommentCount fileCommentCount skippedCount : Nat) : M Unit :=
  submitReviewSummary (summaryText results lineCommentCount fileCommentCount skippedCount)

/-- The guarded line-comment stage of `submitBatchReviewComments`
(lines 311-315): run the batching loop only when line comments were planned,
discarding the returned counters. -/
def lineStage (plan : CommentPlan) (commitId : String) : M Unit :=
  if plan.lineComments.length > 0 then do
    let _counts ← submitLineCommentsInBatches plan.lineComments commitId
    pure ()
  else pure ()

/-- The guarded file-comment stage of `submitBatchReviewComments`
(lines 318-320). -/
def fileStage (plan : CommentPlan) : M Unit :=
  if plan.fileComments.length > 0 then submitFileComments plan.fileComments else pure ()

/-- The guarded skipped-comment stage of `submitBatchReviewComments`
(lines 323-325). -/
def skipStage (plan : CommentPlan) : M Unit :=
  if plan.skippedComments.length > 0 then handleSkippedComments plan.skippedComments else pure ()

/-- `submitBatchReviewComments` (lines 289-337): fetch the diff, parse it,
fetch the head commit, plan the comments, then run the three delivery stages
and the final summary.  The outer catch logs and rethrows. -/
def submitBatchReviewComments (diffText sha : String) (results : List ReviewResult) : M Unit := do
  let dt ← getPullRequestDiff diffText
  let positionMap := parseDiffPositionMap dt
  let commitId ← getHeadCommitSha sha
  let plan := prepareComments results positionMap
  lineStage plan commitId
  fileStage plan
  skipStage plan
  submitFinalSummary results plan.lineComments.length plan.fileComments.length
    plan.skippedComments.length

/-- Fresh interpreter state. -/
def initSt : NetSt := ⟨0, 0, 0, []⟩

/-- Run the batch pipeline from a fresh state. -/
def runPipeline (o : Oracles) (diffText sha : String) (results : List ReviewResult) :
    NetSt × Except PErr Unit :=
  submitBatchReviewComments diffText sha results o initSt

/-- Run the batching stage alone from a fresh state. -/
def runLineBatches (o : Oracles) (comments : List LineComment) (commitId : String) :
    NetSt × Except PErr (Nat × Nat) :=
  submitLineCommentsInBatches comments commitId o initSt

/-- Run the single-comment operation from a fresh state. -/
def runSingleComment (o : Oracles) (diffText sha filePath : String) (line : Option Int)
    (comment : String) : NetSt × Except PErr Unit :=
  submitReviewComment diffText sha filePath line comment o initSt

/-! ## Interpreter lemmas -/

theorem bind_run {α β : Type} (x : M α) (f : α → M β) (o : Oracles) (s : NetSt) :
    (x >>= f) o s =
      match x o s with
      | (s', .ok a) => f a o s'
      | (s', .error e) => (s', .error e) := rfl

theorem pure_run {α : Type} (a : α) (o : Oracles) (s : NetSt) :
    (pure a : M α) o s = (s, .ok a) := rfl

theorem bind_ok {α β : Type} {x : M α} {f : α → M β} {o : Oracles} {s s' : NetSt} {b : β}
    (h : (x >>= f) o s = (s', Except.ok b)) :
    ∃ s₁ a, x o s = (s₁, Except.ok a) ∧ f a o s₁ = (s', Except.ok b) := by
  rw [bind_run] at h
  rcases hx : x o s with ⟨s₁, r⟩
  rw [hx] at h
  cases r with
  | ok a => exact ⟨s₁, a, rfl, h⟩
  | error e => simp at h

/-! ## Shared concrete oracles and inputs for witnesses and counterexamples -/

/-- Every endpoint always succeeds. -/
def oracleAllOk : Oracles := ⟨fun _ => .ok, fun _ => .ok, fun _ => .ok⟩

/-- GET endpoints succeed; the top-level comment endpoint rejects with 500. -/
def oracleTopErr : Oracles := ⟨fun _ => .ok, fun _ => .ok, fun _ => .err 500⟩

/-- GET and top-level endpoints succeed; the review endpoint rejects with a
non-422 status. -/
def oracleReviewErr : Oracles := ⟨fun _ => .ok, fun _ => .err 500, fun _ => .ok⟩

/-- The pull-request GET endpoint throws a network error. -/
def oracleGetExn : Oracles := ⟨fun _ => .exn, fun _ => .ok, fun _ => .ok⟩

/-! ## C5: Scenario A -/

/-- C5: parsing a diff with header for file `F`, hunk `@@ -1,3 +1,4 @@`, then
one context line, one added line, one removed line and one added line yields,
for `F`, exactly the two keys 2 and 3 (= start+1 and start+2) with positions
1 and 2: the context line resets the position counter to 0 and the removed
line advances neither counter and performs no reset. -/
theorem scenarioA_parse :
    parseDiffPositionMap
      "diff --git a/F b/F\n@@ -1,3 +1,4 @@\n ctx\n+new line one\n-removed\n+new line two"
      = [("F", [(2, 1), (3, 2)])] := by decide

/-! ## C9: prerequisite failures abort the run before any submission -/

/-- C9: if fetching the diff text fails (failing status or network error),
the pipeline raises to its caller having issued only the diff fetch; if the
diff fetch succeeds but fetching the head commit SHA fails, it raises having
issued only the two GET requests.  In both cases the trace contains no
submission of any kind. -/
theorem prerequisite_failure_aborts (o : Oracles) (diffText sha : String)
    (results : List ReviewResult) :
    (o.getO 0 ≠ .ok →
      ∃ e, runPipeline o diffText sha results = (⟨1, 0, 0, [.fetchDiff]⟩, .error e)) ∧
    (o.getO 0 = .ok → o.getO 1 ≠ .ok →
      ∃ e, runPipeline o diffText sha results =
        (⟨2, 0, 0, [.fetchDiff, .fetchPr]⟩, .error e)) := by
  constructor
  · intro h
    cases hg : o.getO 0 with
    | ok => exact absurd hg h
    | err status =>
      exact ⟨.apiError status, by
        simp [runPipeline, submitBatchReviewComments, getPullRequestDiff, getCall,
          bind_run, pure_run, throwM, initSt, hg]⟩
    | exn =>
      exact ⟨.netExn, by
        simp [runPipeline, submitBatchReviewComments, getPullRequestDiff, getCall,
          bind_run, pure_run, throwM, initSt, hg]⟩
  · intro h0 h1
    cases hg : o.getO 1 with
    | ok => exact absurd hg h1
    | err status =>
      exact ⟨.apiError status, by
        simp [runPipeline, submitBatchReviewComments, getPullRequestDiff, getHeadCommitSha,
          getCall, bind_run, pure_run, throwM, initSt, h0, hg]⟩
    | exn =>
      exact ⟨.netExn, by
        simp [runPipeline, submitBatchReviewComments, getPullRequestDiff, getHeadCommitSha,
          getCall, bind_run, pure_run, throwM, initSt, h0, hg]⟩

/-- Witness for C9 at a concrete input: a network error on the diff fetch. -/
theorem prerequisite_failure_aborts_witness :
    ∃ e, runPipeline oracleGetExn "d" "s" [] = (⟨1, 0, 0, [.fetchDiff]⟩, .error e) :=
  (prerequisite_failure_aborts oracleGetExn "d" "s" []).1 (by decide)

/-! ## Counterexample inputs -/

/-- A finding with no line number (routed to the file-comment bucket). -/
def issueNoLine : Issue := ⟨none, .warning, "m", none, none⟩

/-- One review result whose only finding has no line number. -/
def resultsOneGeneral : List ReviewResult := [⟨"a.ts", [issueNoLine]⟩]

/-- A finding anchored at line 1. -/
def issueAtLine1 : Issue := ⟨some 1, .info, "msg", none, none⟩

/-- One review result with a single line-anchored finding in file `f`. -/
def resultsOneLine : List ReviewResult := [⟨"f", [issueAtLine1]⟩]

/-- A diff adding exactly line 1 of file `f` (position 1). -/
def dtOneAdd : String := "diff --git a/f b/f\n@@ -1,1 +1,1 @@\n+x"

/-- The line comment `prepareComments` plans for `resultsOneLine` over
`dtOneAdd`. -/
def lineC : LineComment := ⟨"f", 1, formatIssueComment issueAtLine1⟩

/-- Two review results for the same file, each with one no-line finding. -/
def resultsDup : List ReviewResult :=
  [⟨"f", [⟨none, .info, "a", none, none⟩]⟩, ⟨"f", [⟨none, .info, "b", none, none⟩]⟩]

/-! ## C2 (counterexample): a rejected file-level comment aborts the rest of
the pipeline -/

/-- C2 is false as stated: prerequisites succeed (both GETs return OK), the
planner routes the single finding to `fileComments`, and the file-comment
stage's top-level POST is rejected with status 500 — the rejection is not
caught: the run raises `apiError 500`, and the final summary comment (which
would carry body `summaryText resultsOneGeneral 0 1 0`) is never attempted. -/
theorem fileComment_failure_aborts_pipeline :
    runPipeline oracleTopErr "" "sha" resultsOneGeneral =
      (⟨2, 0, 1,
        [.fetchDiff, .fetchPr,
         .topComment (formatFileLevelComment "a.ts" [issueNoLine])]⟩,
       .error (.apiError 500)) ∧
    Event.topComment (summaryText resultsOneGeneral 0 1 0) ∉
      (runPipeline oracleTopErr "" "sha" resultsOneGeneral).1.trace :=
  ⟨rfl, by decide⟩

/-! ## C3 (counterexample): the summary reports planned, not delivered,
counts -/

/-- C3 is false as stated: the single planned line comment fails to deliver
(the review endpoint rejects every batch with status 500, and running the
batching stage on this plan yields 0 succeeded / 1 failed), yet the final
summary comment posted at the end reports `行评论数: 1` — the planned count,
not the delivered count. -/
theorem finalSummary_reports_planned_not_delivered :
    runPipeline oracleReviewErr dtOneAdd "sha" resultsOneLine =
      (⟨2, 1, 1,
        [.fetchDiff, .fetchPr, .batchSubmit [lineC],
         .topComment (summaryText resultsOneLine 1 0 0)]⟩,
       .ok ()) ∧
    summaryText resultsOneLine 1 0 0 =
      "## 📊 AI代码审查完成\n\n**统计信息**\n- 审查文件数: 1\n- 发现问题数: 1\n- 行评论数: 1\n- 文件评论数: 0\n- 跳过评论数: 0\n\n**审查结果已提交，请查看上面的详细评论。**" ∧
    (runLineBatches oracleReviewErr [lineC] "c").2 = .ok (0, 1) :=
  ⟨rfl, rfl, rfl⟩

/-! ## C1 (counterexample): a duplicated file path loses earlier no-line
findings -/

/-- C1 is false as stated: with two results for the same file `f`, each
holding one finding without a line number, the planner's `Map.set` replaces
the first file group by the second instead of appending, so one finding lands
in no bucket: the bucket sizes add up to 1, not to the total of 2, and
`fileComments` retains only the second result's finding. -/
theorem prepareComments_duplicate_file_loses_findings :
    (prepareComments resultsDup []).lineComments.length +
      ((prepareComments resultsDup []).fileComments.map (fun fc => fc.issues.length)).sum +
      (prepareComments resultsDup []).skippedComments.length ≠
      (resultsDup.map (fun r => r.issues.length)).sum ∧
    prepareComments resultsDup [] = ⟨[], [⟨"f", [⟨none, .info, "b", none, none⟩]⟩], []⟩ :=
  ⟨by decide, rfl⟩

/-! ## C1 (amended): the planner partitions when the no-line file groups are
for pairwise distinct files -/

/-- A result's findings without a (truthy) line number, in order. -/
def generalIssuesOf (r : ReviewResult) : List Issue :=
  r.issues.filter (fun i => (issueLine i).isNone)

/-- Whether a result contributes a file-comment group. -/
def hasGeneral (r : ReviewResult) : Bool := !(generalIssuesOf r).isEmpty

/-- Total size of the file-comment groups. -/
def sumFileLens (m : List (String × List Issue)) : Nat :=
  (m.map (fun e => e.2.length)).sum

theorem length_filter_partition {α : Type} (p : α → Bool) (l : List α) :
    (l.filter p).length + (l.filter (fun x => !p x)).length = l.length := by
  induction l with
  | nil => rfl
  | cons a t ih => by_cases h : p a <;> simp [List.filter_cons, h] <;> omega

theorem mapSet_of_not_mem {κ α : Type} [DecidableEq κ] (m : List (κ × α)) (k : κ) (v : α)
    (h : ∀ e ∈ m, e.1 ≠ k) : mapSet m k v = m ++ [(k, v)] := by
  induction m with
  | nil => rfl
  | cons e t ih =>
    have he : e.1 ≠ k := h e (by simp)
    simp only [mapSet, if_neg he]
    rw [ih (fun e' he' => h e' (by simp [he']))]
    simp

theorem prepIssue_fold (pm : List (String × List (Int × Nat))) (file : String)
    (issues : List Issue) :
    ∀ a : PrepAcc,
    (issues.foldl (prepIssue pm file) a).fileMap = a.fileMap ∧
    (issues.foldl (prepIssue pm file) a).lineComments.length +
      (issues.foldl (prepIssue pm file) a).skippedComments.length =
      a.lineComments.length + a.skippedComments.length +
      (issues.filter (fun i => (issueLine i).isSome)).length := by
  induction issues with
  | nil => intro a; simp
  | cons i t ih =>
    intro a
    rw [List.foldl_cons]
    rcases ih (prepIssue pm file a i) with ⟨h1, h2⟩
    cases hl : issueLine i with
    | none =>
      constructor
      · rw [h1]; simp [prepIssue, hl]
      · rw [h2]; simp [prepIssue, hl, List.filter_cons]
    | some l =>
      cases hf : findPositionInMap file l pm with
      | some p =>
        constructor
        · rw [h1]; simp [prepIssue, hl, hf]
        · rw [h2]
          simp [prepIssue, hl, hf, List.filter_cons]
          omega
      | none =>
        constructor
        · rw [h1]; simp [prepIssue, hl, hf]
        · rw [h2]
          simp [prepIssue, hl, hf, List.filter_cons]
          omega

theorem filter_not_isSome (l : List Issue) :
    l.filter (fun i => !(issueLine i).isSome) = l.filter (fun i => (issueLine i).isNone) := by
  apply List.filter_congr
  intro i _
  cases issueLine i <;> simp

theorem issues_length_split (r : ReviewResult) :
    (r.issues.filter (fun i => (issueLine i).isSome)).length + (generalIssuesOf r).length
      = r.issues.length := by
  have h := length_filter_partition (fun i => (issueLine i).isSome) r.issues
  rw [filter_not_isSome] at h
  simpa [generalIssuesOf] using h

theorem prepResult_fileMap (pm : List (String × List (Int × Nat))) (acc : PrepAcc)
    (r : ReviewResult) (hfresh : hasGeneral r = true → ∀ e ∈ acc.fileMap, e.1 ≠ r.file) :
    (prepResult pm acc r).fileMap
      = acc.fileMap ++ (if hasGeneral r then [(r.file, generalIssuesOf r)] else []) := by
  rcases prepIssue_fold pm r.file (r.issues.filter (fun i => (issueLine i).isSome)) acc
    with ⟨hf1, _⟩
  by_cases hg : (r.issues.filter (fun i => (issueLine i).isNone)).isEmpty
  · have hhg : hasGeneral r = false := by simp [hasGeneral, generalIssuesOf, hg]
    simp [prepResult, hg, hf1, hhg]
  · have hhg : hasGeneral r = true := by
      simp [hasGeneral, generalIssuesOf]
      simpa using hg
    have hfr : ∀ e ∈ ((r.issues.filter (fun i => (issueLine i).isSome)).foldl
        (prepIssue pm r.file) acc).fileMap, e.1 ≠ r.file := by
      rw [hf1]; exact hfresh hhg
    simp only [prepResult, if_neg hg]
    rw [mapSet_of_not_mem _ _ _ hfr, hf1]
    simp [hhg, generalIssuesOf]

theorem sumFileLens_append (m m' : List (String × List Issue)) :
    sumFileLens (m ++ m') = sumFileLens m + sumFileLens m' := by
  simp [sumFileLens]

theorem prepResult_counts (pm : List (String × List (Int × Nat))) (acc : PrepAcc)
    (r : ReviewResult) (hfresh : hasGeneral r = true → ∀ e ∈ acc.fileMap, e.1 ≠ r.file) :
    (prepResult pm acc r).lineComments.length + sumFileLens (prepResult pm acc r).fileMap
      + (prepResult pm acc r).skippedComments.length
      = acc.lineComments.length + sumFileLens acc.fileMap + acc.skippedComments.length
        + r.issues.length := by
  rcases prepIssue_fold pm r.file (r.issues.filter (fun i => (issueLine i).isSome)) acc
    with ⟨_, hf2⟩
  have hff : (r.issues.filter (fun i => (issueLine i).isSome)).filter
      (fun i => (issueLine i).isSome) = r.issues.filter (fun i => (issueLine i).isSome) :=
    List.filter_eq_self.mpr (fun a ha => (List.mem_filter.mp ha).2)
  rw [hff] at hf2
  have hsplit := issues_length_split r
  have hline : (prepResult pm acc r).lineComments
      = ((r.issues.filter (fun i => (issueLine i).isSome)).foldl
          (prepIssue pm r.file) acc).lineComments := by
    by_cases hg : (r.issues.filter (fun i => (issueLine i).isNone)).isEmpty <;>
      simp [prepResult, hg]
  have hskip : (prepResult pm acc r).skippedComments
      = ((r.issues.filter (fun i => (issueLine i).isSome)).foldl
          (prepIssue pm r.file) acc).skippedComments := by
    by_cases hg : (r.issues.filter (fun i => (issueLine i).isNone)).isEmpty <;>
      simp [prepResult, hg]
  rw [hline, hskip, prepResult_fileMap pm acc r hfresh, sumFileLens_append]
  by_cases hhg : hasGeneral r = true
  · simp only [hhg, if_true]
    have : sumFileLens [(r.file, generalIssuesOf r)] = (generalIssuesOf r).length := by
      simp [sumFileLens]
    rw [this]
    omega
  · have hhg' : hasGeneral r = false := by simpa using hhg
    have hgen0 : (generalIssuesOf r).length = 0 := by
      have hE : (generalIssuesOf r).isEmpty = true := by simpa [hasGeneral] using hhg'
      rw [List.isEmpty_iff] at hE
      simp [hE]
    simp only [hhg']
    rw [if_neg (by simp)]
    have : sumFileLens ([] : List (String × List Issue)) = 0 := rfl
    rw [this]
    omega

theorem prep_fold (pm : List (String × List (Int × Nat))) (rs : List ReviewResult) :
    ∀ acc : PrepAcc,
    ((rs.filter hasGeneral).map (fun r => r.file)).Nodup →
    (∀ r ∈ rs, hasGeneral r = true → ∀ e ∈ acc.fileMap, e.1 ≠ r.file) →
    (rs.foldl (prepResult pm) acc).fileMap
        = acc.fileMap ++ (rs.filter hasGeneral).map (fun r => (r.file, generalIssuesOf r)) ∧
    (rs.foldl (prepResult pm) acc).lineComments.length
      + sumFileLens (rs.foldl (prepResult pm) acc).fileMap
      + (rs.foldl (prepResult pm) acc).skippedComments.length
      = acc.lineComments.length + sumFileLens acc.fileMap + acc.skippedComments.length
        + (rs.map (fun r => r.issues.length)).sum := by
  induction rs with
  | nil => intro acc _ _; simp
  | cons r t ih =>
    intro acc hnd hfresh
    rw [List.foldl_cons]
    have hfreshr : hasGeneral r = true → ∀ e ∈ acc.fileMap, e.1 ≠ r.file :=
      fun hg => hfresh r (by simp) hg
    have hFM := prepResult_fileMap pm acc r hfreshr
    have hCN := prepResult_counts pm acc r hfreshr
    by_cases hhg : hasGeneral r = true
    · rw [List.filter_cons, if_pos hhg, List.map_cons, List.nodup_cons] at hnd
      rcases hnd with ⟨hnd1, hnd2⟩
      rw [hhg, if_pos rfl] at hFM
      have hfresh' : ∀ r' ∈ t, hasGeneral r' = true →
          ∀ e ∈ (prepResult pm acc r).fileMap, e.1 ≠ r'.file := by
        intro r' hr' hgr' e he
        rw [hFM] at he
        rcases List.mem_append.mp he with he | he
        · exact hfresh r' (by simp [hr']) hgr' e he
        · simp at he
          rw [he]
          intro hcontra
          have h2 : r.file = r'.file := hcontra
          apply hnd1
          rw [h2]
          exact List.mem_map.mpr ⟨r', List.mem_filter.mpr ⟨hr', hgr'⟩, rfl⟩
      rcases ih (prepResult pm acc r) hnd2 hfresh' with ⟨ih1, ih2⟩
      constructor
      · rw [ih1, hFM, List.filter_cons, if_pos hhg, List.map_cons, List.append_assoc]
        rfl
      · rw [ih2, List.map_cons, List.sum_cons]
        omega
    · have hhg' : hasGeneral r = false := by simpa using hhg
      rw [List.filter_cons, if_neg (by simp [hhg'])] at hnd
      rw [hhg', if_neg (by simp), List.append_nil] at hFM
      have hfresh' : ∀ r' ∈ t, hasGeneral r' = true →
          ∀ e ∈ (prepResult pm acc r).fileMap, e.1 ≠ r'.file := by
        intro r' hr' hgr' e he
        rw [hFM] at he
        exact hfresh r' (by simp [hr']) hgr' e he
      rcases ih (prepResult pm acc r) hnd hfresh' with ⟨ih1, ih2⟩
      constructor
      · rw [ih1, hFM, List.filter_cons, if_neg (by simp [hhg'])]
      · rw [ih2, List.map_cons, List.sum_cons]
        omega

/-- C1 (amended): whenever the results contributing no-line findings have
pairwise distinct file paths, the planner partitions the findings: every
finding lands in exactly one bucket, with
`|lineComments| + Σ|fileComments groups| + |skipped| = |findings|`, and the
file-comment groups are exactly the no-line findings of each contributing
result, grouped by file in result order and preserving finding order within
a group.  (As the counterexample shows, when the same file path occurs in
more than one result with no-line findings, `Map.set` replaces the earlier
group by the later one instead of appending, and the partition equation
fails.) -/
theorem prepareComments_partition (results : List ReviewResult)
    (pm : List (String × List (Int × Nat)))
    (h : ((results.filter hasGeneral).map (fun r => r.file)).Nodup) :
    (prepareComments results pm).lineComments.length
      + ((prepareComments results pm).fileComments.map (fun fc => fc.issues.length)).sum
      + (prepareComments results pm).skippedComments.length
      = (results.map (fun r => r.issues.length)).sum ∧
    (prepareComments results pm).fileComments
      = (results.filter hasGeneral).map (fun r => ⟨r.file, generalIssuesOf r⟩) := by
  rcases prep_fold pm results ⟨[], [], []⟩ h (by intro r _ _ e he; simp at he)
    with ⟨h1, h2⟩
  constructor
  · have hmm : (((results.foldl (prepResult pm) ⟨[], [], []⟩).fileMap.map
        (fun e => (⟨e.1, e.2⟩ : FileComment))).map (fun fc => fc.issues.length)).sum
        = sumFileLens (results.foldl (prepResult pm) ⟨[], [], []⟩).fileMap := by
      rw [List.map_map]
      rfl
    simp only [prepareComments]
    rw [hmm]
    simpa [sumFileLens] using h2
  · simp only [prepareComments]
    rw [h1]
    simp [List.map_map]

/-- Witness for C1 (amended) at a concrete input with distinct files. -/
theorem prepareComments_partition_witness :
    (prepareComments [⟨"a", [issueNoLine, issueAtLine1]⟩, ⟨"b", [issueNoLine]⟩] []).lineComments.length
      + ((prepareComments [⟨"a", [issueNoLine, issueAtLine1]⟩, ⟨"b", [issueNoLine]⟩] []).fileComments.map
          (fun fc => fc.issues.length)).sum
      + (prepareComments [⟨"a", [issueNoLine, issueAtLine1]⟩, ⟨"b", [issueNoLine]⟩] []).skippedComments.length
      = ([⟨"a", [issueNoLine, issueAtLine1]⟩, (⟨"b", [issueNoLine]⟩ : ReviewResult)].map
          (fun r => r.issues.length)).sum ∧
    (prepareComments [⟨"a", [issueNoLine, issueAtLine1]⟩, ⟨"b", [issueNoLine]⟩] []).fileComments
      = ([⟨"a", [issueNoLine, issueAtLine1]⟩, (⟨"b", [issueNoLine]⟩ : ReviewResult)].filter hasGeneral).map
          (fun r => ⟨r.file, generalIssuesOf r⟩) :=
  prepareComments_partition [⟨"a", [issueNoLine, issueAtLine1]⟩, ⟨"b", [issueNoLine]⟩] []
    (by decide)

/-! ## C4: the resolution specification of `findPositionInMap` -/

/-- Distance between an index entry's line and the requested line. -/
def distOf (lineNumber : Int) (e : Int × Nat) : Nat := (e.1 - lineNumber).natAbs

/-- One step of picking the first element attaining the minimum of `f`. -/
def minStep {α : Type} (f : α → Nat) (acc : Option α) (b : α) : Option α :=
  match acc with
  | none => some b
  | some c => if f b < f c then some b else some c

/-- The first element of a list attaining the minimum of `f` (a reference
specification for the nearest-neighbour scan, with the same
first-encountered tie-break). -/
def firstMinBy {α : Type} (f : α → Nat) (l : List α) : Option α :=
  l.foldl (minStep f) none

theorem firstMinBy_cons {α : Type} (f : α → Nat) (a : α) (l : List α) :
    firstMinBy f (a :: l) = l.foldl (minStep f) (some a) := rfl

theorem foldMin_decomp {α : Type} (f : α → Nat) :
    ∀ (l : List α) (c : α),
    ∃ r, l.foldl (minStep f) (some c) = some r ∧
      ∃ pre post, c :: l = pre ++ r :: post ∧ (∀ y ∈ pre, f r < f y) ∧
        (∀ y ∈ c :: l, f r ≤ f y) := by
  intro l
  induction l with
  | nil =>
    intro c
    exact ⟨c, rfl, [], [], rfl, by simp, by simp⟩
  | cons b tl ih =>
    intro c
    rw [List.foldl_cons]
    by_cases hlt : f b < f c
    · have hstep : minStep f (some c) b = some b := by simp [minStep, hlt]
      rw [hstep]
      rcases ih b with ⟨r, hr, pre', post', hdec, hpre, hmin⟩
      refine ⟨r, hr, c :: pre', post', ?_, ?_, ?_⟩
      · rw [List.cons_append, ← hdec]
      · intro y hy
        rcases List.mem_cons.mp hy with hy | hy
        · subst hy
          exact lt_of_le_of_lt (hmin b (by simp)) hlt
        · exact hpre y hy
      · intro y hy
        rcases List.mem_cons.mp hy with hy | hy
        · subst hy
          exact le_of_lt (lt_of_le_of_lt (hmin b (by simp)) hlt)
        · exact hmin y hy
    · have hstep : minStep f (some c) b = some c := by simp [minStep, hlt]
      rw [hstep]
      rcases ih c with ⟨r, hr, pre', post', hdec, hpre, hmin⟩
      cases pre' with
      | nil =>
        rw [List.nil_append] at hdec
        injection hdec with h1 h2
        refine ⟨r, hr, [], b :: tl, ?_, by simp, ?_⟩
        · rw [List.nil_append, ← h1]
        · intro y hy
          rcases List.mem_cons.mp hy with hy | hy
          · subst hy
            rw [← h1]
          · rcases List.mem_cons.mp hy with hy | hy
            · subst hy
              rw [← h1]
              exact le_of_not_lt hlt
            · exact hmin y (by simp [hy])
      | cons p pre'' =>
        rw [List.cons_append] at hdec
        injection hdec with h1 h2
        have hrc : f r < f c := by
          rw [h1]
          exact hpre p (List.mem_cons_self p pre'')
        refine ⟨r, hr, c :: b :: pre'', post', ?_, ?_, ?_⟩
        · rw [h2]
          simp
        · intro y hy
          rcases List.mem_cons.mp hy with hy | hy
          · subst hy; exact hrc
          · rcases List.mem_cons.mp hy with hy | hy
            · subst hy; exact lt_of_lt_of_le hrc (le_of_not_lt hlt)
            · exact hpre y (by simp [hy])
        · intro y hy
          rcases List.mem_cons.mp hy with hy | hy
          · subst hy; exact le_of_lt hrc
          · rcases List.mem_cons.mp hy with hy | hy
            · subst hy; exact le_of_lt (lt_of_lt_of_le hrc (le_of_not_lt hlt))
            · exact hmin y (by simp [hy])

theorem firstMinBy_spec {α : Type} (f : α → Nat) (l : List α) (x : α)
    (h : firstMinBy f l = some x) :
    ∃ pre post, l = pre ++ x :: post ∧ (∀ y ∈ pre, f x < f y) ∧ (∀ y ∈ l, f x ≤ f y) := by
  cases l with
  | nil => simp [firstMinBy] at h
  | cons a tl =>
    rw [firstMinBy_cons] at h
    rcases foldMin_decomp f tl a with ⟨r, hr, pre, post, hdec, hpre, hmin⟩
    rw [hr] at h
    cases h
    exact ⟨pre, post, hdec, hpre, hmin⟩

theorem nearStep_some_update (ln : Int) (x : Nat) (m : Nat) (e : Int × Nat)
    (h : distOf ln e < m ∧ distOf ln e ≤ 3) :
    nearStep ln (some x, some m) e = (some e.2, some (distOf ln e)) := by
  show (if distOf ln e < m ∧ distOf ln e ≤ 3 then (some e.2, some (distOf ln e))
        else (some x, some m)) = (some e.2, some (distOf ln e))
  rw [if_pos h]

theorem nearStep_some_keep (ln : Int) (x : Nat) (m : Nat) (e : Int × Nat)
    (h : ¬(distOf ln e < m ∧ distOf ln e ≤ 3)) :
    nearStep ln (some x, some m) e = (some x, some m) := by
  show (if distOf ln e < m ∧ distOf ln e ≤ 3 then (some e.2, some (distOf ln e))
        else (some x, some m)) = (some x, some m)
  rw [if_neg h]

theorem nearStep_none_update (ln : Int) (e : Int × Nat) (h : distOf ln e ≤ 3) :
    nearStep ln (none, none) e = (some e.2, some (distOf ln e)) := by
  show (if distOf ln e ≤ 3 then (some e.2, some (distOf ln e))
        else (none, none)) = (some e.2, some (distOf ln e))
  rw [if_pos h]

theorem nearStep_none_keep (ln : Int) (e : Int × Nat) (h : ¬distOf ln e ≤ 3) :
    nearStep ln (none, none) e = (none, none) := by
  show (if distOf ln e ≤ 3 then (some e.2, some (distOf ln e))
        else (none, none)) = (none, none)
  rw [if_neg h]

theorem nearFold_some (ln : Int) :
    ∀ (fm : List (Int × Nat)) (cur : Int × Nat), distOf ln cur ≤ 3 →
    fm.foldl (nearStep ln) (some cur.2, some (distOf ln cur))
      = (((fm.filter (fun e => distOf ln e ≤ 3)).foldl (minStep (distOf ln)) (some cur)).map
            (fun e => e.2),
         ((fm.filter (fun e => distOf ln e ≤ 3)).foldl (minStep (distOf ln)) (some cur)).map
            (distOf ln)) := by
  intro fm
  induction fm with
  | nil => intro cur _; simp
  | cons e tl ih =>
    intro cur hcur
    rw [List.foldl_cons, List.filter_cons]
    by_cases hd3 : distOf ln e ≤ 3
    · rw [if_pos (by simpa using hd3), List.foldl_cons]
      by_cases hlt : distOf ln e < distOf ln cur
      · rw [nearStep_some_update ln cur.2 (distOf ln cur) e ⟨hlt, hd3⟩]
        have h2 : minStep (distOf ln) (some cur) e = some e := by
          simp [minStep, hlt]
        rw [h2]
        exact ih e hd3
      · rw [nearStep_some_keep ln cur.2 (distOf ln cur) e (fun hc => hlt hc.1)]
        have h2 : minStep (distOf ln) (some cur) e = some cur := by
          simp [minStep, hlt]
        rw [h2]
        exact ih cur hcur
    · rw [if_neg (by simpa using hd3)]
      rw [nearStep_some_keep ln cur.2 (distOf ln cur) e (fun hc => hd3 hc.2)]
      exact ih cur hcur

theorem nearFold_none (ln : Int) :
    ∀ fm : List (Int × Nat),
    fm.foldl (nearStep ln) (none, none)
      = ((firstMinBy (distOf ln) (fm.filter (fun e => distOf ln e ≤ 3))).map (fun e => e.2),
         (firstMinBy (distOf ln) (fm.filter (fun e => distOf ln e ≤ 3))).map (distOf ln)) := by
  intro fm
  induction fm with
  | nil => simp [firstMinBy]
  | cons e tl ih =>
    rw [List.foldl_cons, List.filter_cons]
    by_cases hd3 : distOf ln e ≤ 3
    · rw [if_pos (by simpa using hd3), nearStep_none_update ln e hd3, firstMinBy_cons]
      exact nearFold_some ln tl e hd3
    · rw [if_neg (by simpa using hd3), nearStep_none_keep ln e hd3]
      exact ih

theorem mapGet_mem {κ α : Type} [DecidableEq κ] :
    ∀ (m : List (κ × α)) (k : κ) (v : α), mapGet m k = some v → (k, v) ∈ m := by
  intro m
  induction m with
  | nil => intro k v h; simp [mapGet] at h
  | cons e rest ih =>
    obtain ⟨k', v'⟩ := e
    intro k v h
    rw [mapGet] at h
    by_cases hk : k' = k
    · rw [if_pos hk] at h
      cases h
      subst hk
      exact List.mem_cons_self _ _
    · rw [if_neg hk] at h
      exact List.mem_cons_of_mem _ (ih k v h)

theorem filter_eq_append_cons {α : Type} (p : α → Bool) :
    ∀ (l l₁ : List α) (a : α) (l₂ : List α), l.filter p = l₁ ++ a :: l₂ →
    ∃ m₁ m₂, l = m₁ ++ a :: m₂ ∧ m₁.filter p = l₁ ∧ m₂.filter p = l₂ := by
  intro l
  induction l with
  | nil =>
    intro l₁ a l₂ h
    rw [List.filter_nil] at h
    exact absurd h.symm (List.append_ne_nil_of_right_ne_nil l₁ (by simp))
  | cons b tl ih =>
    intro l₁ a l₂ h
    rw [List.filter_cons] at h
    by_cases pb : p b = true
    · rw [if_pos pb] at h
      cases l₁ with
      | nil =>
        rw [List.nil_append] at h
        injection h with h1 h2
        exact ⟨[], tl, by simp [h1], rfl, h2⟩
      | cons c l₁' =>
        rw [List.cons_append] at h
        injection h with h1 h2
        rcases ih l₁' a l₂ h2 with ⟨m₁, m₂, hl, hf1, hf2⟩
        refine ⟨b :: m₁, m₂, by simp [hl], ?_, hf2⟩
        rw [List.filter_cons, if_pos pb, hf1, h1]
    · rw [if_neg pb] at h
      rcases ih l₁ a l₂ h with ⟨m₁, m₂, hl, hf1, hf2⟩
      refine ⟨b :: m₁, m₂, by simp [hl], ?_, hf2⟩
      rw [List.filter_cons, if_neg pb, hf1]

/-- C4: resolution specification of `findPositionInMap`.  For every index,
file and line: (1) an exact entry always wins; (2) an unknown file resolves
to not-found; (3) any returned position comes from some entry of the file
within distance 3 of the requested line; (4) with no exact entry and no
entry within distance 3 the result is not-found; (5) with some entry within
distance 3 a position is returned; and (6) with no exact entry a returned
position belongs to an entry of minimal distance among the within-3 entries,
and every earlier entry in iteration order with distance at most 3 has
strictly larger distance (ties go to the first-encountered entry). -/
theorem findPositionInMap_resolution (pm : List (String × List (Int × Nat)))
    (file : String) (ln : Int) :
    (∀ fm p, mapGet pm file = some fm → mapGet fm ln = some p →
      findPositionInMap file ln pm = some p) ∧
    (mapGet pm file = none → findPositionInMap file ln pm = none) ∧
    (∀ p, findPositionInMap file ln pm = some p →
      ∃ fm e, mapGet pm file = some fm ∧ e ∈ fm ∧ e.2 = p ∧ distOf ln e ≤ 3) ∧
    (∀ fm, mapGet pm file = some fm → mapGet fm ln = none →
      (∀ e ∈ fm, ¬distOf ln e ≤ 3) → findPositionInMap file ln pm = none) ∧
    (∀ fm, mapGet pm file = some fm → (∃ e ∈ fm, distOf ln e ≤ 3) →
      ∃ p, findPositionInMap file ln pm = some p) ∧
    (∀ fm p, mapGet pm file = some fm → mapGet fm ln = none →
      findPositionInMap file ln pm = some p →
      ∃ pre e post, fm = pre ++ e :: post ∧ e.2 = p ∧ distOf ln e ≤ 3 ∧
        (∀ y ∈ fm, distOf ln y ≤ 3 → distOf ln e ≤ distOf ln y) ∧
        (∀ y ∈ pre, distOf ln y ≤ 3 → distOf ln e < distOf ln y)) := by
  refine ⟨?_, ?_, ?_, ?_, ?_, ?_⟩
  · intro fm p hfm hp
    simp only [findPositionInMap, hfm, hp]
  · intro h
    simp only [findPositionInMap, h]
  · intro p hp
    cases hfm : mapGet pm file with
    | none => simp only [findPositionInMap, hfm] at hp; exact absurd hp (by simp)
    | some fm =>
      simp only [findPositionInMap, hfm] at hp
      cases hex : mapGet fm ln with
      | some q =>
        simp only [hex] at hp
        cases hp
        refine ⟨fm, (ln, p), rfl, mapGet_mem fm ln p hex, rfl, ?_⟩
        simp [distOf]
      | none =>
        simp only [hex, nearFold_none] at hp
        cases hmin : firstMinBy (distOf ln) (fm.filter (fun e => distOf ln e ≤ 3)) with
        | none => rw [hmin] at hp; simp at hp
        | some x =>
          rw [hmin] at hp
          simp at hp
          rcases firstMinBy_spec _ _ _ hmin with ⟨pre, post, hdec, _, _⟩
          have hx : x ∈ fm.filter (fun e => distOf ln e ≤ 3) := by
            rw [hdec]; simp
          have hx' := List.mem_filter.mp hx
          exact ⟨fm, x, rfl, hx'.1, hp, by simpa using hx'.2⟩
  · intro fm hfm hex hall
    simp only [findPositionInMap, hfm, hex, nearFold_none]
    have hfilter : fm.filter (fun e => distOf ln e ≤ 3) = [] := by
      rw [List.filter_eq_nil_iff]
      intro e he
      simpa using hall e he
    rw [hfilter]
    simp [firstMinBy]
  · intro fm hfm hin
    rcases hin with ⟨e, he, hd⟩
    cases hex : mapGet fm ln with
    | some q =>
      refine ⟨q, ?_⟩
      simp only [findPositionInMap, hfm, hex]
    | none =>
      simp only [findPositionInMap, hfm, hex, nearFold_none]
      have hne : fm.filter (fun e => distOf ln e ≤ 3) ≠ [] := by
        intro hnil
        have hmem : e ∈ fm.filter (fun e => distOf ln e ≤ 3) :=
          List.mem_filter.mpr ⟨he, by simpa using hd⟩
        rw [hnil] at hmem
        simp at hmem
      cases hfl : fm.filter (fun e => distOf ln e ≤ 3) with
      | nil => exact absurd hfl hne
      | cons a tl =>
        rcases foldMin_decomp (distOf ln) tl a with ⟨r, hr, _, _, _, _, _⟩
        refine ⟨r.2, ?_⟩
        rw [firstMinBy_cons, hr]
        simp
  · intro fm p hfm hex hp
    simp only [findPositionInMap, hfm, hex, nearFold_none] at hp
    cases hmin : firstMinBy (distOf ln) (fm.filter (fun e => distOf ln e ≤ 3)) with
    | none => rw [hmin] at hp; simp at hp
    | some x =>
      rw [hmin] at hp
      simp at hp
      rcases firstMinBy_spec _ _ _ hmin with ⟨preF, postF, hdec, hpre, hminall⟩
      rcases filter_eq_append_cons _ fm preF x postF hdec with ⟨m₁, m₂, hl, hf1, hf2⟩
      refine ⟨m₁, x, m₂, hl, hp, ?_, ?_, ?_⟩
      · have hx : x ∈ fm.filter (fun e => distOf ln e ≤ 3) := by
          rw [hdec]; simp
        simpa using (List.mem_filter.mp hx).2
      · intro y hy hy3
        exact hminall y (List.mem_filter.mpr ⟨hy, by simpa using hy3⟩)
      · intro y hy hy3
        apply hpre
        rw [← hf1]
        exact List.mem_filter.mpr ⟨hy, by simpa using hy3⟩

/-- Witness for C4 at a concrete index: an exact hit, an unknown file, and a
nearest-neighbour hit within distance 3. -/
theorem findPositionInMap_resolution_witness :
    findPositionInMap "a" 10 [("a", [(10, 7), (14, 9), (2, 5)])] = some 7 ∧
    findPositionInMap "zz" 10 [("a", [(10, 7), (14, 9), (2, 5)])] = none ∧
    (∃ p, findPositionInMap "a" 12 [("a", [(10, 7), (14, 9), (2, 5)])] = some p) :=
  ⟨(findPositionInMap_resolution [("a", [(10, 7), (14, 9), (2, 5)])] "a" 10).1
      [(10, 7), (14, 9), (2, 5)] 7 (by decide) (by decide),
   (findPositionInMap_resolution [("a", [(10, 7), (14, 9), (2, 5)])] "zz" 10).2.1 (by decide),
   (findPositionInMap_resolution [("a", [(10, 7), (14, 9), (2, 5)])] "a" 12).2.2.2.2.1
      [(10, 7), (14, 9), (2, 5)] (by decide) ⟨(10, 7), by decide, by decide⟩⟩

/-! ## C6: index keys come only from added lines of announced files -/

theorem mapGet_mapSet {κ α : Type} [DecidableEq κ] :
    ∀ (m : List (κ × α)) (k : κ) (v : α) (k' : κ),
    mapGet (mapSet m k v) k' = if k = k' then some v else mapGet m k' := by
  intro m
  induction m with
  | nil =>
    intro k v k'
    simp [mapSet, mapGet]
  | cons e rest ih =>
    obtain ⟨a, b⟩ := e
    intro k v k'
    rw [mapSet]
    by_cases hak : a = k
    · rw [if_pos hak, mapGet]
      by_cases hkk : k = k'
      · rw [if_pos hkk, if_pos hkk]
      · rw [if_neg hkk, if_neg hkk, mapGet, if_neg (by rw [hak]; exact hkk)]
    · rw [if_neg hak, mapGet, mapGet]
      by_cases hak' : a = k'
      · have hkk : ¬k = k' := by rw [← hak']; intro hc; exact hak hc.symm
        rw [if_pos hak', if_pos hak', if_neg hkk]
      · rw [if_neg hak', if_neg hak', ih]

theorem mem_mapSet {κ α : Type} [DecidableEq κ] :
    ∀ (m : List (κ × α)) (k : κ) (v : α) (x : κ × α),
    x ∈ mapSet m k v → x ∈ m ∨ x = (k, v) := by
  intro m
  induction m with
  | nil =>
    intro k v x hx
    rw [mapSet] at hx
    right
    simpa using hx
  | cons e rest ih =>
    obtain ⟨a, b⟩ := e
    intro k v x hx
    rw [mapSet] at hx
    by_cases hak : a = k
    · rw [if_pos hak] at hx
      rcases List.mem_cons.mp hx with hx | hx
      · right; exact hx
      · left; exact List.mem_cons_of_mem _ hx
    · rw [if_neg hak] at hx
      rcases List.mem_cons.mp hx with hx | hx
      · left; rw [hx]; exact List.mem_cons_self _ _
      · rcases ih k v x hx with hx | hx
        · left; exact List.mem_cons_of_mem _ hx
        · right; exact hx

/-- How one parse step can change the position map: not at all; registering
an announced file with an empty table; or adding the key
`currentNewLine + 1` to the current file's table at an in-hunk added line. -/
theorem parseStep_positionMap_cases (s : ParseState) (k : LineKind) :
    (parseStep s k).positionMap = s.positionMap ∨
    (∃ path, k = .fileHeader (some path) ∧
      (parseStep s k).positionMap = mapSet s.positionMap path []) ∨
    (∃ fm0, mapGet s.positionMap s.currentFile = some fm0 ∧ k = .added ∧ s.inHunk = true ∧
      (parseStep s k).positionMap
        = mapSet s.positionMap s.currentFile
            (mapSet fm0 (s.currentNewLine + 1) (s.currentPosition + 1))) := by
  cases k with
  | fileHeader op =>
    cases op with
    | none => left; rfl
    | some path => right; left; exact ⟨path, rfl, rfl⟩
  | pathMarker => left; rfl
  | hunkHeader op =>
    cases op with
    | none => left; rfl
    | some ns => left; rfl
  | added =>
    by_cases hin : s.inHunk
    · cases hfm : mapGet s.positionMap s.currentFile with
      | none => left; simp [parseStep, hin, hfm]
      | some fm0 =>
        right; right
        exact ⟨fm0, rfl, rfl, hin, by simp [parseStep, hin, hfm]⟩
    · left; simp [parseStep, hin]
  | removed => left; rfl
  | context =>
    by_cases hin : s.inHunk <;> simp [parseStep, hin]

/-- The parser's pass instrumented with the list of `(file, newLine)` pairs
recorded while processing an added line inside a hunk. -/
def parseWithRecords : List (List Char) → ParseState → List (String × Int) →
    ParseState × List (String × Int)
  | [], s, recs => (s, recs)
  | l :: rest, s, recs =>
    let recs' :=
      if classify l = LineKind.added ∧ s.inHunk then
        recs ++ [(s.currentFile, s.currentNewLine + 1)]
      else recs
    parseWithRecords rest (parseStep s (classify l)) recs'

/-- The `(file, newLine)` pairs recorded at in-hunk added lines of a diff. -/
def addedRecords (diffText : String) : List (String × Int) :=
  (parseWithRecords (splitLines diffText) parseInit []).2

theorem parseWithRecords_fst :
    ∀ (ls : List (List Char)) (s : ParseState) (recs : List (String × Int)),
    (parseWithRecords ls s recs).1 = ls.foldl (fun s l => parseStep s (classify l)) s := by
  intro ls
  induction ls with
  | nil => intro s recs; rfl
  | cons l rest ih =>
    intro s recs
    rw [parseWithRecords, List.foldl_cons]
    exact ih _ _

theorem parseWithRecords_keys :
    ∀ (ls : List (List Char)) (s : ParseState) (recs : List (String × Int)),
    (∀ f fm n q, mapGet s.positionMap f = some fm → (n, q) ∈ fm → (f, n) ∈ recs) →
    ∀ f fm n q,
      mapGet (parseWithRecords ls s recs).1.positionMap f = some fm → (n, q) ∈ fm →
      (f, n) ∈ (parseWithRecords ls s recs).2 := by
  intro ls
  induction ls with
  | nil => intro s recs hinv f fm n q h1 h2; exact hinv f fm n q h1 h2
  | cons l rest ih =>
    intro s recs hinv
    rw [parseWithRecords]
    apply ih
    intro f fm n q h1 h2
    set recs' :=
      if classify l = LineKind.added ∧ s.inHunk then
        recs ++ [(s.currentFile, s.currentNewLine + 1)]
      else recs with hrecs'
    have hsub : ∀ x, x ∈ recs → x ∈ recs' := by
      intro x hx
      rw [hrecs']
      split
      · exact List.mem_append_left _ hx
      · exact hx
    rcases parseStep_positionMap_cases s (classify l) with hc | ⟨path, hk, hc⟩ |
        ⟨fm0, hfm0, hk, hin, hc⟩
    · rw [hc] at h1
      exact hsub _ (hinv f fm n q h1 h2)
    · rw [hc, mapGet_mapSet] at h1
      by_cases hpf : path = f
      · rw [if_pos hpf] at h1
        cases h1
        simp at h2
      · rw [if_neg hpf] at h1
        exact hsub _ (hinv f fm n q h1 h2)
    · rw [hc, mapGet_mapSet] at h1
      have hrecs'' : recs' = recs ++ [(s.currentFile, s.currentNewLine + 1)] := by
        rw [hrecs', if_pos ⟨hk, hin⟩]
      by_cases hcf : s.currentFile = f
      · rw [if_pos hcf] at h1
        cases h1
        rcases mem_mapSet _ _ _ _ h2 with h2 | h2
        · exact hsub _ (hinv f fm0 n q (hcf ▸ hfm0) h2)
        · rw [hrecs'']
          apply List.mem_append_right
          have hn : n = s.currentNewLine + 1 := (Prod.mk.injEq _ _ _ _ ▸ h2).1
          simp [hcf, hn]
      · rw [if_neg hcf] at h1
        exact hsub _ (hinv f fm n q h1 h2)

theorem parse_announced_aux :
    ∀ (ls : List (List Char)) (s : ParseState) (f : String),
    (mapGet ((ls.foldl (fun s l => parseStep s (classify l)) s).positionMap) f).isSome →
    (mapGet s.positionMap f).isSome ∨ ∃ l ∈ ls, classify l = .fileHeader (some f) := by
  intro ls
  induction ls with
  | nil => intro s f h; left; exact h
  | cons l rest ih =>
    intro s f h
    rw [List.foldl_cons] at h
    rcases ih (parseStep s (classify l)) f h with h' | h'
    · rcases parseStep_positionMap_cases s (classify l) with hc | ⟨path, hk, hc⟩ |
          ⟨fm0, hfm0, hk, hin, hc⟩
      · rw [hc] at h'
        left; exact h'
      · rw [hc, mapGet_mapSet] at h'
        by_cases hpf : path = f
        · right
          exact ⟨l, List.mem_cons_self _ _, by rw [hk, hpf]⟩
        · rw [if_neg hpf] at h'
          left; exact h'
      · rw [hc, mapGet_mapSet] at h'
        by_cases hcf : s.currentFile = f
        · left
          rw [← hcf, hfm0]
          rfl
        · rw [if_neg hcf] at h'
          left; exact h'
    · rcases h' with ⟨l', hl', hcl⟩
      right
      exact ⟨l', List.mem_cons_of_mem _ hl', hcl⟩

theorem classify_added_imp (l : List Char) (h : classify l = .added) :
    startsWithCl "+".data l = true ∧ startsWithCl "+++".data l = false := by
  unfold classify at h
  split_ifs at h with h1 h2 h3 h4 h5
  simp_all

/-- C6: for every diff text, (1) every `(file, newLine)` key present in the
resulting index was recorded while processing a line classified as an added
line inside a hunk, with `file` the parser's current file at that moment (so
no key exists for a line that only ever appeared as context or deletion);
(2) every file with an entry in the index was announced by a `diff --git`
header line (so hunk content appearing before any file header contributes no
entries); and (3) a line classified as added indeed begins with `+` and not
with `+++`. -/
theorem parse_keys_come_from_added_lines (diffText : String) :
    (∀ f fm n q, mapGet (parseDiffPositionMap diffText) f = some fm → (n, q) ∈ fm →
      (f, n) ∈ addedRecords diffText) ∧
    (∀ f fm, mapGet (parseDiffPositionMap diffText) f = some fm →
      ∃ l ∈ splitLines diffText, classify l = .fileHeader (some f)) ∧
    (∀ l : List Char, classify l = .added →
      startsWithCl "+".data l = true ∧ startsWithCl "+++".data l = false) := by
  refine ⟨?_, ?_, fun l h => classify_added_imp l h⟩
  · intro f fm n q h1 h2
    have hfst := parseWithRecords_fst (splitLines diffText) parseInit []
    apply parseWithRecords_keys (splitLines diffText) parseInit []
      (by intro f' fm' n' q' h1' h2'; simp [parseInit, mapGet] at h1')
      f fm n q
    · rw [hfst]
      exact h1
    · exact h2
  · intro f fm h1
    have hfst := parseWithRecords_fst (splitLines diffText) parseInit []
    have h := parse_announced_aux (splitLines diffText) parseInit f
      (by show (mapGet (parseDiffPositionMap diffText) f).isSome = true; rw [h1]; rfl)
    rcases h with h | h
    · simp [parseInit, mapGet] at h
    · exact h

/-- Witness for C6 at a concrete diff: the single key of file `g` was
recorded at the added line, and `g` was announced by the header line. -/
theorem parse_keys_come_from_added_lines_witness :
    ("g", (1 : Int)) ∈ addedRecords "diff --git a/g b/g\n@@ -1,1 +1,1 @@\n+z" ∧
    ∃ l ∈ splitLines "diff --git a/g b/g\n@@ -1,1 +1,1 @@\n+z",
      classify l = .fileHeader (some "g") :=
  ⟨(parse_keys_come_from_added_lines "diff --git a/g b/g\n@@ -1,1 +1,1 @@\n+z").1
      "g" [(1, 1)] 1 1 (by decide) (by decide),
   (parse_keys_come_from_added_lines "diff --git a/g b/g\n@@ -1,1 +1,1 @@\n+z").2.1
      "g" [(1, 1)] (by decide)⟩

/-! ## C7/C8: trace structure of the batching stage -/

/-- The payload of a batch submission event. -/
def batchArg : Event → Option (List LineComment)
  | .batchSubmit b => some b
  | _ => none

/-- The payload of an individual submission event. -/
def singleArg : Event → Option LineComment
  | .singleSubmit c => some c
  | _ => none

/-- Keep only batch submissions and inter-batch pauses (the skeleton of the
batching stage's trace). -/
def keepSkel (e : Event) : Bool := (batchArg e).isSome || decide (e = Event.pause 1500)

/-- The batches `slice(i, i + 10)` taken by the loop, with the loop bound as
fuel exactly as in `submitLineCommentsInBatchesGo`. -/
def chunksGo {α : Type} : Nat → List α → List (List α)
  | _, [] => []
  | 0, _ :: _ => []
  | fuel + 1, l => l.take 10 :: chunksGo fuel (l.drop 10)

/-- The successive batches of a comment list. -/
def chunks {α : Type} (l : List α) : List (List α) := chunksGo l.length l

theorem chunksGo_fuel {α : Type} :
    ∀ (fuel fuel' : Nat) (l : List α), l.length ≤ fuel → l.length ≤ fuel' →
    chunksGo fuel l = chunksGo fuel' l := by
  intro fuel
  induction fuel with
  | zero =>
    intro fuel' l h _
    have : l = [] := List.eq_nil_of_length_eq_zero (Nat.le_zero.mp h)
    subst this
    cases fuel' <;> rfl
  | succ f ih =>
    intro fuel' l h h'
    cases l with
    | nil => cases fuel' <;> rfl
    | cons c rest =>
      cases fuel' with
      | zero => simp at h'
      | succ f' =>
        show (c :: rest).take 10 :: chunksGo f ((c :: rest).drop 10)
            = (c :: rest).take 10 :: chunksGo f' ((c :: rest).drop 10)
        have hlen : ((c :: rest).drop 10).length ≤ f := by
          simp at h ⊢
          omega
        have hlen' : ((c :: rest).drop 10).length ≤ f' := by
          simp at h' ⊢
          omega
        rw [ih f' _ hlen hlen']

theorem chunks_nil {α : Type} : chunks ([] : List α) = [] := rfl

theorem chunks_cons {α : Type} (c : α) (rest : List α) :
    chunks (c :: rest) = (c :: rest).take 10 :: chunks ((c :: rest).drop 10) := by
  show chunksGo (c :: rest).length (c :: rest) = _
  cases hl : (c :: rest).length with
  | zero => simp at hl
  | succ n =>
    show (c :: rest).take 10 :: chunksGo n ((c :: rest).drop 10) = _
    rw [chunksGo_fuel n ((c :: rest).drop 10).length ((c :: rest).drop 10)
      (by simp at hl ⊢; omega) (le_refl _)]
    rfl

theorem chunks_ne_nil {α : Type} (c : α) (rest : List α) : chunks (c :: rest) ≠ [] := by
  rw [chunks_cons]
  simp

theorem chunks_length {α : Type} :
    ∀ (l : List α), l ≠ [] → (chunks l).length = (l.length + 9) / 10 := by
  have go : ∀ (n : Nat) (l : List α), l.length ≤ n → (chunks l).length = (l.length + 9) / 10 := by
    intro n
    induction n with
    | zero =>
      intro l h
      have : l = [] := List.eq_nil_of_length_eq_zero (Nat.le_zero.mp h)
      subst this
      simp [chunks_nil]
    | succ m ih =>
      intro l h
      cases l with
      | nil => simp [chunks_nil]
      | cons c rest =>
        rw [chunks_cons]
        have hd : ((c :: rest).drop 10).length ≤ m := by
          simp at h ⊢
          omega
        rw [List.length_cons, ih _ hd]
        simp
        omega
  intro l _
  exact go l.length l (le_refl _)

theorem chunks_mem_size {α : Type} :
    ∀ (l : List α), ∀ b ∈ chunks l, b.length ≤ 10 ∧ b ≠ [] := by
  have go : ∀ (n : Nat) (l : List α), l.length ≤ n → ∀ b ∈ chunks l, b.length ≤ 10 ∧ b ≠ [] := by
    intro n
    induction n with
    | zero =>
      intro l h b hb
      have : l = [] := List.eq_nil_of_length_eq_zero (Nat.le_zero.mp h)
      subst this
      simp [chunks_nil] at hb
    | succ m ih =>
      intro l h b hb
      cases l with
      | nil => simp [chunks_nil] at hb
      | cons c rest =>
        rw [chunks_cons] at hb
        rcases List.mem_cons.mp hb with hb | hb
        · subst hb
          constructor
          · simp [List.length_take]
          · simp
        · exact ih ((c :: rest).drop 10) (by simp at h ⊢; omega) b hb
  intro l
  exact go l.length l (le_refl _)

theorem chunks_dropLast_size {α : Type} :
    ∀ (l : List α), ∀ b ∈ (chunks l).dropLast, b.length = 10 := by
  have go : ∀ (n : Nat) (l : List α), l.length ≤ n →
      ∀ b ∈ (chunks l).dropLast, b.length = 10 := by
    intro n
    induction n with
    | zero =>
      intro l h b hb
      have : l = [] := List.eq_nil_of_length_eq_zero (Nat.le_zero.mp h)
      subst this
      simp [chunks_nil] at hb
    | succ m ih =>
      intro l h b hb
      cases l with
      | nil => simp [chunks_nil] at hb
      | cons c rest =>
        rw [chunks_cons] at hb
        by_cases hdrop : (c :: rest).drop 10 = []
        · rw [hdrop, chunks_nil] at hb
          simp at hb
        · cases hch : chunks ((c :: rest).drop 10) with
          | nil =>
            cases hd : (c :: rest).drop 10 with
            | nil => exact absurd hd hdrop
            | cons x xs => rw [hd, chunks_cons] at hch; simp at hch
          | cons ch chs =>
            rw [hch, List.dropLast_cons_of_ne_nil (by simp)] at hb
            rcases List.mem_cons.mp hb with hb | hb
            · subst hb
              have hlen : 10 < (c :: rest).length := by
                by_contra hle
                push_neg at hle
                exact hdrop (List.drop_eq_nil_of_le hle)
              rw [List.length_take]
              omega
            · have := ih ((c :: rest).drop 10) (by simp at h ⊢; omega) b
              rw [hch] at this
              exact this hb
  intro l
  exact go l.length l (le_refl _)

theorem mtry_run {α : Type} (x : M α) (h : PErr → M α) (o : Oracles) (s : NetSt) :
    mtry x h o s =
      match x o s with
      | (s', .ok a) => (s', .ok a)
      | (s', .error e) => h e o s' := rfl

theorem submitOneIndividually_run (c : LineComment) (o : Oracles) (s : NetSt) :
    ∃ tr, submitOneIndividually c o s
      = ({ s with reviewIdx := s.reviewIdx + 1, trace := s.trace ++ tr }, .ok ()) ∧
      (tr = [.singleSubmit c, .pause 500] ∨ tr = [.singleSubmit c]) := by
  cases h : o.reviewO s.reviewIdx with
  | ok =>
    refine ⟨[.singleSubmit c, .pause 500], ?_, Or.inl rfl⟩
    simp [submitOneIndividually, mtry_run, bind_run, reviewCall, mpause, h]
  | err status =>
    refine ⟨[.singleSubmit c, .pause 500], ?_, Or.inl rfl⟩
    simp [submitOneIndividually, mtry_run, bind_run, reviewCall, mpause, h]
  | exn =>
    refine ⟨[.singleSubmit c], ?_, Or.inr rfl⟩
    simp [submitOneIndividually, mtry_run, bind_run, reviewCall, mpause, pure_run, h]

theorem submitCommentsIndividually_run :
    ∀ (cs : List LineComment) (commitId : String) (o : Oracles) (s : NetSt),
    ∃ tr, submitCommentsIndividually cs commitId o s
      = ({ s with reviewIdx := s.reviewIdx + cs.length, trace := s.trace ++ tr }, .ok ()) ∧
      tr.filterMap batchArg = [] ∧
      tr.filterMap singleArg = cs ∧
      tr.filter keepSkel = [] := by
  intro cs
  induction cs with
  | nil =>
    intro commitId o s
    refine ⟨[], ?_, rfl, rfl, rfl⟩
    simp [submitCommentsIndividually, pure_run]
  | cons c rest ih =>
    intro commitId o s
    rcases submitOneIndividually_run c o s with ⟨tr1, h1, htr1⟩
    rcases ih commitId o ({ s with reviewIdx := s.reviewIdx + 1, trace := s.trace ++ tr1 })
      with ⟨tr2, h2, hb2, hs2, hk2⟩
    refine ⟨tr1 ++ tr2, ?_, ?_, ?_, ?_⟩
    · show (submitOneIndividually c >>= fun _ => submitCommentsIndividually rest commitId) o s
        = _
      rw [bind_run, h1]
      show submitCommentsIndividually rest commitId o
        { s with reviewIdx := s.reviewIdx + 1, trace := s.trace ++ tr1 } = _
      rw [h2]
      simp only [Prod.mk.injEq, NetSt.mk.injEq, List.append_assoc, List.length_cons,
        and_true, true_and]
      omega
    · rw [List.filterMap_append, hb2]
      rcases htr1 with h | h <;> simp [h, batchArg]
    · rw [List.filterMap_append, hs2]
      rcases htr1 with h | h <;> simp [h, singleArg]
    · rw [List.filter_append, hk2]
      rcases htr1 with h | h <;> simp [h, keepSkel, batchArg, singleArg]

theorem submitOneBatch_run (batch : List LineComment) (commitId : String)
    (succCount failCount : Nat) (o : Oracles) (s : NetSt) :
    ∃ tr' k sc fc,
      submitOneBatch batch commitId succCount failCount o s
        = ({ s with reviewIdx := s.reviewIdx + k, trace := s.trace ++ (Event.batchSubmit batch :: tr') }, .ok (sc, fc)) ∧
      tr'.filterMap batchArg = [] ∧
      tr'.filterMap singleArg = (if o.reviewO s.reviewIdx = .err 422 then batch else []) ∧
      tr'.filter keepSkel = [] ∧
      sc + fc = succCount + failCount + batch.length ∧
      (o.reviewO s.reviewIdx = .ok → (sc, fc) = (succCount + batch.length, failCount)) ∧
      (o.reviewO s.reviewIdx ≠ .ok → (sc, fc) = (succCount, failCount + batch.length)) ∧
      ((∀ st, o.reviewO s.reviewIdx = .err st → st ≠ 422) → tr' = []) ∧
      k = 1 + (tr'.filterMap singleArg).length := by
  cases h : o.reviewO s.reviewIdx with
  | ok =>
    refine ⟨[], 1, succCount + batch.length, failCount, ?_, rfl, ?_, rfl, ?_, ?_, ?_, ?_, ?_⟩
    · simp [submitOneBatch, mtry_run, bind_run, reviewCall, pure_run, h]
    · simp
    · omega
    · intro _; rfl
    · intro hc; exact absurd rfl hc
    · intro _; rfl
    · rfl
  | err status =>
    by_cases h422 : status = 422
    · subst h422
      rcases submitCommentsIndividually_run batch commitId o
          ({ s with reviewIdx := s.reviewIdx + 1, trace := s.trace ++ [Event.batchSubmit batch] })
        with ⟨trI, hI, hIb, hIs, hIk⟩
      refine ⟨trI, 1 + batch.length, succCount, failCount + batch.length, ?_, hIb, ?_, hIk,
        ?_, ?_, ?_, ?_, ?_⟩
      · simp only [submitOneBatch, mtry_run, bind_run, reviewCall, h, pure_run,
          eq_self_iff_true, if_true]
        rw [hI]
        simp only [Prod.mk.injEq, NetSt.mk.injEq, List.append_assoc, List.singleton_append,
          and_true, true_and]
        omega
      · simp [hIs]
      · omega
      · intro hc; exact absurd hc (by simp)
      · intro _; rfl
      · intro hc; exact absurd rfl (hc 422 rfl)
      · rw [hIs]
    · refine ⟨[], 1, succCount, failCount + batch.length, ?_, rfl, ?_, rfl, ?_, ?_, ?_, ?_, ?_⟩
      · simp [submitOneBatch, mtry_run, bind_run, reviewCall, pure_run, h, h422]
      · simp [h422]
      · omega
      · intro hc; exact absurd hc (by simp)
      · intro _; rfl
      · intro _; rfl
      · rfl
  | exn =>
    refine ⟨[], 1, succCount, failCount + batch.length, ?_, rfl, ?_, rfl, ?_, ?_, ?_, ?_, ?_⟩
    · simp [submitOneBatch, mtry_run, bind_run, reviewCall, pure_run, h]
    · simp
    · omega
    · intro hc; exact absurd hc (by simp)
    · intro _; rfl
    · intro _; rfl
    · rfl

theorem intersperse_cons_of_ne_nil {α : Type} (sep x : α) (l : List α) (h : l ≠ []) :
    List.intersperse sep (x :: l) = x :: sep :: List.intersperse sep l := by
  cases l with
  | nil => exact absurd rfl h
  | cons y ys => rfl

theorem mpause_run (ms : Nat) (o : Oracles) (s : NetSt) :
    mpause ms o s = ({ s with trace := s.trace ++ [Event.pause ms] }, .ok ()) := rfl

theorem all_none_of_filterMap_nil {α β : Type} (f : α → Option β) :
    ∀ l : List α, l.filterMap f = [] → ∀ a ∈ l, f a = none := by
  intro l
  induction l with
  | nil => intro _ a ha; simp at ha
  | cons b tl ih =>
    intro h a ha
    rw [List.filterMap_cons] at h
    cases hb : f b with
    | some v => rw [hb] at h; simp at h
    | none =>
      rw [hb] at h
      rcases List.mem_cons.mp ha with ha | ha
      · rw [ha]; exact hb
      · exact ih h a ha

theorem takeWhile_append_all {α : Type} (p : α → Bool) :
    ∀ l₁ l₂ : List α, (∀ e ∈ l₁, p e = true) →
    (l₁ ++ l₂).takeWhile p = l₁ ++ l₂.takeWhile p := by
  intro l₁
  induction l₁ with
  | nil => intro l₂ _; rfl
  | cons a tl ih =>
    intro l₂ hall
    rw [List.cons_append, List.takeWhile_cons, if_pos (hall a (by simp)),
      ih l₂ (fun e he => hall e (by simp [he])), List.cons_append]

theorem goBatches_run :
    ∀ (fuel : Nat) (cs : List LineComment), cs.length ≤ fuel →
    ∀ (commitId : String) (succCount failCount : Nat) (o : Oracles) (s : NetSt),
    ∃ tr k sc fc,
      submitLineCommentsInBatchesGo commitId fuel cs succCount failCount o s
        = ({ s with reviewIdx := s.reviewIdx + k, trace := s.trace ++ tr }, .ok (sc, fc)) ∧
      tr.filterMap batchArg = chunks cs ∧
      tr.filter keepSkel
        = List.intersperse (Event.pause 1500) ((chunks cs).map Event.batchSubmit) ∧
      sc + fc = succCount + failCount + cs.length ∧
      (cs = [] → tr = []) ∧
      (cs ≠ [] → ∃ tr0, tr = Event.batchSubmit (cs.take 10) :: tr0) ∧
      (cs ≠ [] → o.reviewO s.reviewIdx = .err 422 →
        ∃ tr1, tr = Event.batchSubmit (cs.take 10) :: tr1 ∧
          (tr1.takeWhile (fun e => (batchArg e).isNone)).filterMap singleArg
            = cs.take 10) := by
  intro fuel
  induction fuel with
  | zero =>
    intro cs h commitId succCount failCount o s
    have hnil : cs = [] := List.eq_nil_of_length_eq_zero (Nat.le_zero.mp h)
    subst hnil
    refine ⟨[], 0, succCount, failCount, ?_, ?_, ?_, ?_, ?_, ?_, ?_⟩
    · simp [submitLineCommentsInBatchesGo, pure_run]
    · rfl
    · rfl
    · simp
    · intro _; rfl
    · intro hc; exact absurd rfl hc
    · intro hc; exact absurd rfl hc
  | succ fuel ih =>
    intro cs h commitId succCount failCount o s
    cases cs with
    | nil =>
      refine ⟨[], 0, succCount, failCount, ?_, ?_, ?_, ?_, ?_, ?_, ?_⟩
      · simp [submitLineCommentsInBatchesGo, pure_run]
      · rfl
      · rfl
      · simp
      · intro _; rfl
      · intro hc; exact absurd rfl hc
      · intro hc; exact absurd rfl hc
    | cons c rest =>
      rcases submitOneBatch_run ((c :: rest).take 10) commitId succCount failCount o s
        with ⟨tr1, k1, sc1, fc1, hB, hBb, hBs, hBk, hBsum, _, _, _, _⟩
      set s1 : NetSt :=
        { s with reviewIdx := s.reviewIdx + k1, trace := s.trace ++ (Event.batchSubmit ((c :: rest).take 10) :: tr1) } with hs1
      have hdlen : ((c :: rest).drop 10).length ≤ fuel := by
        rw [List.length_drop]
        rw [List.length_cons] at h ⊢
        omega
      have hbdsum : ((c :: rest).take 10).length + ((c :: rest).drop 10).length
          = (c :: rest).length := by
        rw [List.length_take, List.length_drop]
        omega
      by_cases hlen : (c :: rest).length > 10
      · -- a pause follows this batch, and more batches remain
        have hdne : (c :: rest).drop 10 ≠ [] := by
          intro hc
          have hld : (c :: rest).length ≤ 10 := List.drop_eq_nil_iff.mp hc
          omega
        have hmne : (chunks ((c :: rest).drop 10)).map Event.batchSubmit ≠ [] := by
          cases hd : (c :: rest).drop 10 with
          | nil => exact absurd hd hdne
          | cons d ds =>
            intro hc
            rw [List.map_eq_nil_iff] at hc
            exact chunks_ne_nil d ds hc
        rcases ih ((c :: rest).drop 10) hdlen commitId sc1 fc1 o
            ({ s1 with trace := s1.trace ++ [Event.pause 1500] })
          with ⟨tr2, k2, sc2, fc2, hR, hRb, hRk, hRsum, _, hRhead, _⟩
        refine ⟨Event.batchSubmit ((c :: rest).take 10) :: (tr1 ++ Event.pause 1500 :: tr2),
          k1 + k2, sc2, fc2, ?_, ?_, ?_, ?_, ?_, ?_, ?_⟩
        · have hP : interBatchPause (c :: rest) o s1
              = ({ s1 with trace := s1.trace ++ [Event.pause 1500] }, .ok ()) := by
            rw [interBatchPause, if_pos hlen, mpause_run]
          simp only [submitLineCommentsInBatchesGo]
          rw [bind_run, hB]
          show (interBatchPause (c :: rest) >>=
              fun _ => submitLineCommentsInBatchesGo commitId fuel ((c :: rest).drop 10)
                sc1 fc1) o s1 = _
          rw [bind_run, hP]
          show submitLineCommentsInBatchesGo commitId fuel ((c :: rest).drop 10) sc1 fc1 o
            ({ s1 with trace := s1.trace ++ [Event.pause 1500] }) = _
          rw [hR, hs1]
          simp only [Prod.mk.injEq, NetSt.mk.injEq, List.append_assoc, List.cons_append,
            List.singleton_append, List.nil_append, and_true, true_and]
          omega
        · rw [chunks_cons]
          simp [List.filterMap_cons, List.filterMap_append, batchArg, hBb, hRb]
        · rw [chunks_cons, List.map_cons, intersperse_cons_of_ne_nil _ _ _ hmne]
          simp [List.filter_cons, List.filter_append, keepSkel, batchArg, hBk, hRk]
        · omega
        · intro hc; exact absurd hc (by simp)
        · intro _; exact ⟨_, rfl⟩
        · intro _ h422
          refine ⟨tr1 ++ Event.pause 1500 :: tr2, rfl, ?_⟩
          have hall : ∀ e ∈ tr1, (fun e => (batchArg e).isNone) e = true := by
            intro e he
            show (batchArg e).isNone = true
            rw [all_none_of_filterMap_nil batchArg tr1 hBb e he]
            rfl
          rw [takeWhile_append_all _ tr1 _ hall]
          rcases hRhead hdne with ⟨tr0, htr0⟩
          rw [htr0, List.takeWhile_cons,
            if_pos (show (batchArg (Event.pause 1500)).isNone = true from rfl),
            List.takeWhile_cons, if_neg (by simp [batchArg])]
          rw [List.filterMap_append, hBs, if_pos h422]
          simp [singleArg]
      · -- last batch: no pause, nothing remains
        have hdnil : (c :: rest).drop 10 = [] := by
          apply List.drop_eq_nil_of_le
          omega
        rcases ih ((c :: rest).drop 10) hdlen commitId sc1 fc1 o s1
          with ⟨tr2, k2, sc2, fc2, hR, hRb, hRk, hRsum, hRnil, _, _⟩
        have htr2 : tr2 = [] := hRnil hdnil
        subst htr2
        refine ⟨Event.batchSubmit ((c :: rest).take 10) :: tr1,
          k1 + k2, sc2, fc2, ?_, ?_, ?_, ?_, ?_, ?_, ?_⟩
        · have hP : interBatchPause (c :: rest) o s1 = (s1, .ok ()) := by
            rw [interBatchPause, if_neg hlen, pure_run]
          simp only [submitLineCommentsInBatchesGo]
          rw [bind_run, hB]
          show (interBatchPause (c :: rest) >>=
              fun _ => submitLineCommentsInBatchesGo commitId fuel ((c :: rest).drop 10)
                sc1 fc1) o s1 = _
          rw [bind_run, hP]
          show submitLineCommentsInBatchesGo commitId fuel ((c :: rest).drop 10) sc1 fc1 o s1
            = _
          rw [hR, hs1]
          simp only [Prod.mk.injEq, NetSt.mk.injEq, List.append_assoc, List.append_nil,
            and_true, true_and]
          omega
        · rw [chunks_cons, hdnil, chunks_nil]
          simp [List.filterMap_cons, batchArg, hBb]
        · rw [chunks_cons, hdnil, chunks_nil, List.map_cons, List.map_nil]
          simp [List.filter_cons, keepSkel, batchArg, hBk, List.intersperse]
        · have hg : (List.drop 10 (c :: rest)).length = 0 := by rw [hdnil]; rfl
          omega
        · intro hc; exact absurd hc (by simp)
        · intro _; exact ⟨_, rfl⟩
        · intro _ h422
          refine ⟨tr1, rfl, ?_⟩
          have hall : ∀ e ∈ tr1, (fun e => (batchArg e).isNone) e = true := by
            intro e he
            show (batchArg e).isNone = true
            rw [all_none_of_filterMap_nil batchArg tr1 hBb e he]
            rfl
          rw [List.takeWhile_eq_self_iff.mpr (by intro x hx; exact hall x hx)]
          rw [hBs, if_pos h422]

theorem goBatches_allFail :
    ∀ (fuel : Nat) (cs : List LineComment), cs.length ≤ fuel →
    ∀ (commitId : String) (succCount failCount : Nat) (o : Oracles) (s : NetSt),
    (∀ i, ∃ st, o.reviewO i = .err st ∧ st ≠ 422) →
    ∃ tr,
      submitLineCommentsInBatchesGo commitId fuel cs succCount failCount o s
        = ({ s with reviewIdx := s.reviewIdx + (chunks cs).length, trace := s.trace ++ tr },
           .ok (succCount, failCount + cs.length)) ∧
      tr.filterMap singleArg = [] := by
  intro fuel
  induction fuel with
  | zero =>
    intro cs h commitId succCount failCount o s _
    have hnil : cs = [] := List.eq_nil_of_length_eq_zero (Nat.le_zero.mp h)
    subst hnil
    refine ⟨[], ?_, rfl⟩
    simp [submitLineCommentsInBatchesGo, pure_run, chunks_nil]
  | succ fuel ih =>
    intro cs h commitId succCount failCount o s hO
    cases cs with
    | nil =>
      refine ⟨[], ?_, rfl⟩
      simp [submitLineCommentsInBatchesGo, pure_run, chunks_nil]
    | cons c rest =>
      rcases submitOneBatch_run ((c :: rest).take 10) commitId succCount failCount o s
        with ⟨tr1, k1, sc1, fc1, hB, _, _, _, _, _, hBneok, hB422, hBkval⟩
      rcases hO s.reviewIdx with ⟨st, hst, hstne⟩
      have hne : o.reviewO s.reviewIdx ≠ .ok := by rw [hst]; intro hc; cases hc
      have hcounts : (sc1, fc1) = (succCount, failCount + ((c :: rest).take 10).length) :=
        hBneok hne
      have htr1 : tr1 = [] := by
        apply hB422
        intro st' hst'
        rw [hst] at hst'
        injection hst' with hst''
        rw [← hst'']
        exact hstne
      subst htr1
      injection hcounts with hsc1 hfc1
      rw [hsc1, hfc1] at hB
      have hk1 : k1 = 1 := by
        rw [hBkval]
        rfl
      rw [hk1] at hB
      set s1 : NetSt :=
        { s with reviewIdx := s.reviewIdx + 1, trace := s.trace ++ (Event.batchSubmit ((c :: rest).take 10) :: []) } with hs1
      have hdlen : ((c :: rest).drop 10).length ≤ fuel := by
        rw [List.length_drop]
        rw [List.length_cons] at h ⊢
        omega
      by_cases hlen : (c :: rest).length > 10
      · have hP : interBatchPause (c :: rest) o s1
            = ({ s1 with trace := s1.trace ++ [Event.pause 1500] }, .ok ()) := by
          rw [interBatchPause, if_pos hlen, mpause_run]
        rcases ih ((c :: rest).drop 10) hdlen commitId succCount
            (failCount + ((c :: rest).take 10).length) o
            ({ s1 with trace := s1.trace ++ [Event.pause 1500] }) hO
          with ⟨tr2, hR, hR0⟩
        refine ⟨Event.batchSubmit ((c :: rest).take 10) :: Event.pause 1500 :: tr2, ?_, ?_⟩
        · simp only [submitLineCommentsInBatchesGo]
          rw [bind_run, hB]
          show (interBatchPause (c :: rest) >>=
              fun _ => submitLineCommentsInBatchesGo commitId fuel ((c :: rest).drop 10)
                succCount (failCount + ((c :: rest).take 10).length)) o s1 = _
          rw [bind_run, hP]
          show submitLineCommentsInBatchesGo commitId fuel ((c :: rest).drop 10) succCount
            (failCount + ((c :: rest).take 10).length) o
            ({ s1 with trace := s1.trace ++ [Event.pause 1500] }) = _
          rw [hR, hs1]
          have hch : (chunks (c :: rest)).length = (chunks ((c :: rest).drop 10)).length + 1 := by
            rw [chunks_cons]
            rfl
          have hlensum : ((c :: rest).take 10).length + ((c :: rest).drop 10).length
              = (c :: rest).length := by
            rw [List.length_take, List.length_drop]
            omega
          simp only [Prod.mk.injEq, NetSt.mk.injEq, List.append_assoc, List.cons_append,
            List.singleton_append, List.nil_append, and_true, true_and]
          constructor
          · rw [hch]
            omega
          · simp only [Except.ok.injEq, Prod.mk.injEq, true_and]
            omega
        · show List.filterMap singleArg (Event.batchSubmit ((c :: rest).take 10)
              :: Event.pause 1500 :: tr2) = []
          rw [List.filterMap_cons, List.filterMap_cons]
          show List.filterMap singleArg tr2 = []
          exact hR0
      · have hdnil : (c :: rest).drop 10 = [] := by
          apply List.drop_eq_nil_of_le
          omega
        have hP : interBatchPause (c :: rest) o s1 = (s1, .ok ()) := by
          rw [interBatchPause, if_neg hlen, pure_run]
        rcases ih ((c :: rest).drop 10) hdlen commitId succCount
            (failCount + ((c :: rest).take 10).length) o s1 hO
          with ⟨tr2, hR, hR0⟩
        refine ⟨Event.batchSubmit ((c :: rest).take 10) :: tr2, ?_, ?_⟩
        · simp only [submitLineCommentsInBatchesGo]
          rw [bind_run, hB]
          show (interBatchPause (c :: rest) >>=
              fun _ => submitLineCommentsInBatchesGo commitId fuel ((c :: rest).drop 10)
                succCount (failCount + ((c :: rest).take 10).length)) o s1 = _
          rw [bind_run, hP]
          show submitLineCommentsInBatchesGo commitId fuel ((c :: rest).drop 10) succCount
            (failCount + ((c :: rest).take 10).length) o s1 = _
          rw [hR, hs1]
          have hch : (chunks (c :: rest)).length = (chunks ((c :: rest).drop 10)).length + 1 := by
            rw [chunks_cons]
            rfl
          have htk : ((c :: rest).take 10).length = (c :: rest).length := by
            rw [List.length_take]
            omega
          have hg : ((c :: rest).drop 10).length = 0 := by rw [hdnil]; rfl
          simp only [Prod.mk.injEq, NetSt.mk.injEq, List.append_assoc, List.cons_append,
            List.nil_append, and_true, true_and]
          constructor
          · rw [hch]
            omega
          · simp only [Except.ok.injEq, Prod.mk.injEq, true_and]
            omega
        · rw [List.filterMap_cons]
          show List.filterMap singleArg tr2 = []
          exact hR0

/-- C7: for every nonempty list of planned line comments, the batching stage
issues exactly `ceil(n / 10)` batch submissions before any per-item
fallback: restricted to batch submissions and 1500 ms pauses, its trace is
exactly the batches (each carrying the successive slices of ten comments,
the final batch possibly smaller) separated by single inter-batch pauses,
with no pause before the first or after the last batch. -/
theorem batching_shape (o : Oracles) (commitId : String) (cs : List LineComment)
    (h : cs ≠ []) :
    (runLineBatches o cs commitId).1.trace.filter keepSkel
      = List.intersperse (Event.pause 1500) ((chunks cs).map Event.batchSubmit) ∧
    (runLineBatches o cs commitId).1.trace.filterMap batchArg = chunks cs ∧
    (chunks cs).length = (cs.length + 9) / 10 ∧
    (∀ b ∈ (chunks cs).dropLast, b.length = 10) ∧
    (∀ b ∈ chunks cs, b.length ≤ 10 ∧ b ≠ []) := by
  rcases goBatches_run cs.length cs (le_refl _) commitId 0 0 o initSt
    with ⟨tr, k, sc, fc, hrun, hb, hk, _, _, _, _⟩
  have hrun' : runLineBatches o cs commitId
      = ({ initSt with reviewIdx := initSt.reviewIdx + k, trace := initSt.trace ++ tr },
         .ok (sc, fc)) := hrun
  have htrace : (runLineBatches o cs commitId).1.trace = tr := by
    rw [hrun']
    simp [initSt]
  rw [htrace]
  exact ⟨hk, hb, chunks_length cs h, chunks_dropLast_size cs, chunks_mem_size cs⟩

/-- Witness for C7: Scenario D with 25 comments yields three batches of
sizes 10, 10 and 5 with exactly two inter-batch pauses. -/
theorem batching_shape_witness :
    (runLineBatches oracleAllOk (List.replicate 25 lineC) "sha").1.trace.filter keepSkel
      = List.intersperse (Event.pause 1500)
          ((chunks (List.replicate 25 lineC)).map Event.batchSubmit) ∧
    (chunks (List.replicate 25 lineC)).length = 3 ∧
    ((chunks (List.replicate 25 lineC)).map (fun b => b.length)) = [10, 10, 5] := by
  have h := batching_shape oracleAllOk "sha" (List.replicate 25 lineC) (by simp)
  refine ⟨h.1, ?_, ?_⟩
  · rw [h.2.2.1]
    decide
  · decide

/-- C10: for the single-comment operation called with a nonzero line number,
when the head-commit fetch succeeds and the top-level comment endpoint
accepts every submission, a comment whose diff position cannot be computed
(the diff fetch is rejected or throws, or the position lookup returns null)
or whose positioned review request is rejected or throws is delivered as a
top-level comment whose body is the original comment prefixed with a header
naming the file path and line number, and the operation returns normally. -/
theorem single_comment_fallback_to_top_level (o : Oracles) (dt sha filePath comment : String)
    (l : Int) (hl : ¬l = 0) (hget0 : o.getO 0 = .ok) (htop : ∀ k, o.topO k = .ok)
    (hfb : ¬o.getO 1 = .ok ∨
      (o.getO 1 = .ok ∧ findPositionInMap filePath l (parseDiffPositionMap dt) = none) ∨
      (o.getO 1 = .ok ∧
        (∃ p, findPositionInMap filePath l (parseDiffPositionMap dt) = some p) ∧
        ¬o.reviewO 0 = .ok)) :
    (runSingleComment o dt sha filePath (some l) comment).2 = .ok () ∧
    ∃ pre, (runSingleComment o dt sha filePath (some l) comment).1.trace =
      pre ++ [Event.topComment
        ("## 📄 " ++ filePath ++ (" (第 " ++ toString l ++ " 行)") ++ "\n\n" ++ comment)] := by
  rcases hfb with h1 | ⟨h1, h2⟩ | ⟨h1, ⟨p, h2⟩, h3⟩
  · cases hg : o.getO 1 with
    | ok => exact absurd hg h1
    | err status =>
      have hrun : runSingleComment o dt sha filePath (some l) comment =
          (⟨2, 0, 1, [.fetchPr, .fetchDiff, .topComment
            ("## 📄 " ++ filePath ++ (" (第 " ++ toString l ++ " 行)") ++ "\n\n" ++ comment)]⟩,
           .ok ()) := by
        simp [runSingleComment, submitReviewComment, getHeadCommitSha, getCall,
          calculatePositionForLine, getPullRequestDiff, submitFileLevelComment,
          submitReviewSummary, topCall, mtry, throwM, bind_run, pure_run, initSt,
          hget0, hg, htop 0, hl]
      rw [hrun]
      exact ⟨rfl, ⟨[.fetchPr, .fetchDiff], rfl⟩⟩
    | exn =>
      have hrun : runSingleComment o dt sha filePath (some l) comment =
          (⟨2, 0, 1, [.fetchPr, .fetchDiff, .topComment
            ("## 📄 " ++ filePath ++ (" (第 " ++ toString l ++ " 行)") ++ "\n\n" ++ comment)]⟩,
           .ok ()) := by
        simp [runSingleComment, submitReviewComment, getHeadCommitSha, getCall,
          calculatePositionForLine, getPullRequestDiff, submitFileLevelComment,
          submitReviewSummary, topCall, mtry, throwM, bind_run, pure_run, initSt,
          hget0, hg, htop 0, hl]
      rw [hrun]
      exact ⟨rfl, ⟨[.fetchPr, .fetchDiff], rfl⟩⟩
  · have hrun : runSingleComment o dt sha filePath (some l) comment =
        (⟨2, 0, 1, [.fetchPr, .fetchDiff, .topComment
          ("## 📄 " ++ filePath ++ (" (第 " ++ toString l ++ " 行)") ++ "\n\n" ++ comment)]⟩,
         .ok ()) := by
      simp [runSingleComment, submitReviewComment, getHeadCommitSha, getCall,
        calculatePositionForLine, getPullRequestDiff, submitFileLevelComment,
        submitReviewSummary, topCall, mtry, throwM, bind_run, pure_run, initSt,
        hget0, h1, h2, htop 0, hl]
    rw [hrun]
    exact ⟨rfl, ⟨[.fetchPr, .fetchDiff], rfl⟩⟩
  · cases hr : o.reviewO 0 with
    | ok => exact absurd hr h3
    | err status =>
      have hrun : runSingleComment o dt sha filePath (some l) comment =
          (⟨2, 1, 1, [.fetchPr, .fetchDiff, .singleSubmit ⟨filePath, p, comment⟩,
            .topComment
              ("## 📄 " ++ filePath ++ (" (第 " ++ toString l ++ " 行)") ++ "\n\n" ++ comment)]⟩,
           .ok ()) := by
        simp [runSingleComment, submitReviewComment, getHeadCommitSha, getCall,
          calculatePositionForLine, getPullRequestDiff, submitFileLevelComment,
          submitReviewSummary, topCall, reviewCall, mtry, throwM, bind_run, pure_run,
          initSt, hget0, h1, h2, hr, htop 0, hl]
      rw [hrun]
      exact ⟨rfl, ⟨[.fetchPr, .fetchDiff, .singleSubmit ⟨filePath, p, comment⟩], rfl⟩⟩
    | exn =>
      have hrun : runSingleComment o dt sha filePath (some l) comment =
          (⟨2, 1, 1, [.fetchPr, .fetchDiff, .singleSubmit ⟨filePath, p, comment⟩,
            .topComment
              ("## 📄 " ++ filePath ++ (" (第 " ++ toString l ++ " 行)") ++ "\n\n" ++ comment)]⟩,
           .ok ()) := by
        simp [runSingleComment, submitReviewComment, getHeadCommitSha, getCall,
          calculatePositionForLine, getPullRequestDiff, submitFileLevelComment,
          submitReviewSummary, topCall, reviewCall, mtry, throwM, bind_run, pure_run,
          initSt, hget0, h1, h2, hr, htop 0, hl]
      rw [hrun]
      exact ⟨rfl, ⟨[.fetchPr, .fetchDiff, .singleSubmit ⟨filePath, p, comment⟩], rfl⟩⟩

/-- Witness for C10: over the one-line diff for file `f`, line 1 resolves to
position 1 but the review endpoint rejects with 500; the comment is
delivered as a top-level comment with the file-and-line header. -/
theorem single_comment_fallback_witness :
    (runSingleComment oracleReviewErr dtOneAdd "sha" "f" (some 1) "hello").2 = .ok () ∧
    ∃ pre, (runSingleComment oracleReviewErr dtOneAdd "sha" "f" (some 1) "hello").1.trace =
      pre ++ [Event.topComment ("## 📄 " ++ "f" ++ (" (第 " ++ toString (1 : Int) ++ " 行)") ++ "\n\n" ++ "hello")] :=
  single_comment_fallback_to_top_level oracleReviewErr dtOneAdd "sha" "f" "hello" 1
    (by decide) rfl (fun _ => rfl)
    (Or.inr (Or.inr ⟨rfl, ⟨1, by decide⟩, by decide⟩))

/-! ## C2 (amended): the batching stage is total; with an accepting top-level
endpoint the pipeline always completes and posts the final summary -/

theorem bind_run_ok {α β : Type} {x : M α} {o : Oracles} {s s1 : NetSt} {a : α}
    (h : x o s = (s1, Except.ok a)) (f : α → M β) :
    (x >>= f) o s = f a o s1 := by
  rw [bind_run, h]

/-- When the top-level comment endpoint accepts, posting a summary succeeds
and appends exactly one event. -/
theorem topAllOk_summary {o : Oracles} (hT : ∀ k, o.topO k = .ok) (body : String) (s : NetSt) :
    submitReviewSummary body o s =
      ({ s with topIdx := s.topIdx + 1, trace := s.trace ++ [Event.topComment body] },
       .ok ()) := by
  simp [submitReviewSummary, topCall, bind_run, pure_run, hT s.topIdx]

/-- When the top-level comment endpoint accepts, the file-comment stage
succeeds and only appends to the trace. -/
theorem topAllOk_fileComments {o : Oracles} (hT : ∀ k, o.topO k = .ok) :
    ∀ (fcs : List FileComment) (s : NetSt), ∃ s',
      submitFileComments fcs o s = (s', Except.ok ()) ∧ ∃ d, s'.trace = s.trace ++ d := by
  intro fcs
  induction fcs with
  | nil =>
    intro s
    exact ⟨s, pure_run () o s, [], by simp⟩
  | cons fc rest ih =>
    intro s
    obtain ⟨s', hrun, d, hd⟩ := ih
      ({ s with topIdx := s.topIdx + 1, trace := s.trace ++ [Event.topComment (formatFileLevelComment fc.file fc.issues)] ++ [Event.pause 1000] })
    have h1 : submitFileComments (fc :: rest) o s = submitFileComments rest o
        ({ s with topIdx := s.topIdx + 1, trace := s.trace ++ [Event.topComment (formatFileLevelComment fc.file fc.issues)] ++ [Event.pause 1000] }) := by
      simp only [submitFileComments]
      rw [bind_run_ok (topAllOk_summary hT (formatFileLevelComment fc.file fc.issues) s)]
      show (mpause 1000 >>= fun _ => submitFileComments rest) o _ = _
      rw [bind_run_ok (mpause_run 1000 o _)]
    refine ⟨s', by rw [h1]; exact hrun,
      [Event.topComment (formatFileLevelComment fc.file fc.issues), Event.pause 1000] ++ d, ?_⟩
    rw [hd]
    simp

/-- When the top-level comment endpoint accepts, the skipped-comment
escalation loop succeeds and only appends to the trace. -/
theorem topAllOk_skippedGo {o : Oracles} (hT : ∀ k, o.topO k = .ok) :
    ∀ (groups : List (String × List (Int × Issue))) (s : NetSt), ∃ s',
      handleSkippedGo groups o s = (s', Except.ok ()) ∧ ∃ d, s'.trace = s.trace ++ d := by
  intro groups
  induction groups with
  | nil =>
    intro s
    exact ⟨s, pure_run () o s, [], by simp⟩
  | cons g rest ih =>
    intro s
    obtain ⟨s', hrun, d, hd⟩ := ih
      ({ s with topIdx := s.topIdx + 1, trace := s.trace ++ [Event.topComment (skippedFileCommentText g.1 g.2)] ++ [Event.pause 1000] })
    have h1 : handleSkippedGo (g :: rest) o s = handleSkippedGo rest o
        ({ s with topIdx := s.topIdx + 1, trace := s.trace ++ [Event.topComment (skippedFileCommentText g.1 g.2)] ++ [Event.pause 1000] }) := by
      show (submitReviewSummary (skippedFileCommentText g.1 g.2) >>= fun _ =>
        mpause 1000 >>= fun _ => handleSkippedGo rest) o s = _
      rw [bind_run_ok (topAllOk_summary hT (skippedFileCommentText g.1 g.2) s)]
      show (mpause 1000 >>= fun _ => handleSkippedGo rest) o _ = _
      rw [bind_run_ok (mpause_run 1000 o _)]
    refine ⟨s', by rw [h1]; exact hrun,
      [Event.topComment (skippedFileCommentText g.1 g.2), Event.pause 1000] ++ d, ?_⟩
    rw [hd]
    simp

/-- When the top-level comment endpoint accepts, the skipped-comment stage
succeeds and only appends to the trace. -/
theorem topAllOk_skipped {o : Oracles} (hT : ∀ k, o.topO k = .ok)
    (scs : List SkippedComment) (s : NetSt) : ∃ s',
      handleSkippedComments scs o s = (s', Except.ok ()) ∧ ∃ d, s'.trace = s.trace ++ d := by
  by_cases hc : scs.length = 0
  · refine ⟨s, ?_, [], by simp⟩
    simp only [handleSkippedComments, if_pos hc]
    exact pure_run () o s
  · obtain ⟨s', hrun, d, hd⟩ := topAllOk_skippedGo hT
      (scs.foldl (fun m c => mapPush m c.file (c.line, c.issue)) []) s
    refine ⟨s', ?_, d, hd⟩
    simp only [handleSkippedComments, if_neg hc]
    exact hrun

/-- The batching stage always returns normally (every failure is caught and
turned into counts) and only appends to the trace. -/
theorem lineBatches_total (o : Oracles) (commitId : String) (cs : List LineComment) (s : NetSt) :
    ∃ s' counts, submitLineCommentsInBatches cs commitId o s = (s', Except.ok counts) ∧
      ∃ d, s'.trace = s.trace ++ d := by
  rcases goBatches_run cs.length cs (le_refl _) commitId 0 0 o s
    with ⟨tr, k, sc, fc, hrun, _⟩
  exact ⟨_, (sc, fc), hrun, tr, rfl⟩

/-- C2 (amended): failures in the batched line-comment stage are caught and
converted into counts — `submitLineCommentsInBatches` returns normally
whatever the review endpoint answers — and when the two prerequisite
fetches succeed and every top-level comment request is accepted, the whole
pipeline completes normally and posts the final summary, regardless of how
the review endpoint treats the line comments.  (A rejected or throwing
top-level comment request in the file-comment or skipped-comment stage, by
contrast, is not caught and aborts the rest of the run.) -/
theorem lineStage_failures_never_abort (o : Oracles) (dt sha : String)
    (results : List ReviewResult) :
    (∀ (commitId : String) (cs : List LineComment) (s : NetSt), ∃ s' counts,
        submitLineCommentsInBatches cs commitId o s = (s', Except.ok counts)) ∧
    (o.getO 0 = .ok → o.getO 1 = .ok → (∀ k, o.topO k = .ok) →
      (runPipeline o dt sha results).2 = .ok () ∧
      ∃ pre, (runPipeline o dt sha results).1.trace =
        pre ++ [Event.topComment (summaryText results
          (prepareComments results (parseDiffPositionMap dt)).lineComments.length
          (prepareComments results (parseDiffPositionMap dt)).fileComments.length
          (prepareComments results (parseDiffPositionMap dt)).skippedComments.length)]) := by
  constructor
  · intro commitId cs s
    obtain ⟨s', counts, hrun, _⟩ := lineBatches_total o commitId cs s
    exact ⟨s', counts, hrun⟩
  · intro hg0 hg1 hT
    have hA : getPullRequestDiff dt o initSt = (⟨1, 0, 0, [Event.fetchDiff]⟩, .ok dt) := by
      simp [getPullRequestDiff, getCall, bind_run, pure_run, initSt, hg0]
    have hB : getHeadCommitSha sha o ⟨1, 0, 0, [Event.fetchDiff]⟩
        = (⟨2, 0, 0, [Event.fetchDiff, Event.fetchPr]⟩, .ok sha) := by
      simp [getHeadCommitSha, getCall, bind_run, pure_run, hg1]
    have hC : ∃ s3, lineStage (prepareComments results (parseDiffPositionMap dt)) sha o ⟨2, 0, 0, [Event.fetchDiff, Event.fetchPr]⟩ = (s3, Except.ok ()) ∧ ∃ d, s3.trace = [Event.fetchDiff, Event.fetchPr] ++ d := by
      by_cases hc : (prepareComments results (parseDiffPositionMap dt)).lineComments.length > 0
      · obtain ⟨s3, c3, hrun, d, hd⟩ := lineBatches_total o sha
          (prepareComments results (parseDiffPositionMap dt)).lineComments
          ⟨2, 0, 0, [Event.fetchDiff, Event.fetchPr]⟩
        refine ⟨s3, ?_, d, hd⟩
        simp only [lineStage]
        rw [if_pos hc, bind_run_ok hrun]
        exact pure_run () o s3
      · exact ⟨⟨2, 0, 0, [Event.fetchDiff, Event.fetchPr]⟩,
          by simp only [lineStage]; rw [if_neg hc]; exact pure_run () o _, [], by simp⟩
    obtain ⟨s3, hC, d3, hd3⟩ := hC
    have hD : ∃ s4, fileStage (prepareComments results (parseDiffPositionMap dt)) o s3 = (s4, Except.ok ()) ∧ ∃ d, s4.trace = s3.trace ++ d := by
      by_cases hc : (prepareComments results (parseDiffPositionMap dt)).fileComments.length > 0
      · obtain ⟨s4, hrun, d, hd⟩ := topAllOk_fileComments hT
          (prepareComments results (parseDiffPositionMap dt)).fileComments s3
        exact ⟨s4, by simp only [fileStage]; rw [if_pos hc]; exact hrun, d, hd⟩
      · exact ⟨s3, by simp only [fileStage]; rw [if_neg hc]; exact pure_run () o s3, [], by simp⟩
    obtain ⟨s4, hD, d4, hd4⟩ := hD
    have hE : ∃ s5, skipStage (prepareComments results (parseDiffPositionMap dt)) o s4 = (s5, Except.ok ()) ∧ ∃ d, s5.trace = s4.trace ++ d := by
      by_cases hc : (prepareComments results (parseDiffPositionMap dt)).skippedComments.length > 0
      · obtain ⟨s5, hrun, d, hd⟩ := topAllOk_skipped hT
          (prepareComments results (parseDiffPositionMap dt)).skippedComments s4
        exact ⟨s5, by simp only [skipStage]; rw [if_pos hc]; exact hrun, d, hd⟩
      · exact ⟨s4, by simp only [skipStage]; rw [if_neg hc]; exact pure_run () o s4, [], by simp⟩
    obtain ⟨s5, hE, d5, hd5⟩ := hE
    have hF := topAllOk_summary hT (summaryText results
      (prepareComments results (parseDiffPositionMap dt)).lineComments.length
      (prepareComments results (parseDiffPositionMap dt)).fileComments.length
      (prepareComments results (parseDiffPositionMap dt)).skippedComments.length) s5
    have hrun : runPipeline o dt sha results
        = ({ s5 with topIdx := s5.topIdx + 1, trace := s5.trace ++ [Event.topComment (summaryText results (prepareComments results (parseDiffPositionMap dt)).lineComments.length (prepareComments results (parseDiffPositionMap dt)).fileComments.length (prepareComments results (parseDiffPositionMap dt)).skippedComments.length)] }, .ok ()) := by
      simp only [runPipeline, submitBatchReviewComments, submitFinalSummary, bind_run,
        hA, hB, hC, hD, hE, hF]
    rw [hrun]
    exact ⟨rfl, s5.trace, rfl⟩

/-- Witness for C2: with a review endpoint that rejects everything with
status 500 but accepting GET and top-level endpoints, the batching stage
returns normally on a one-comment plan and the pipeline for one planned
line comment completes and posts the final summary. -/
theorem lineStage_failures_never_abort_witness :
    (∃ s' counts, submitLineCommentsInBatches [lineC] "sha" oracleReviewErr initSt
      = (s', Except.ok counts)) ∧
    ((runPipeline oracleReviewErr dtOneAdd "sha" resultsOneLine).2 = .ok () ∧
      ∃ pre, (runPipeline oracleReviewErr dtOneAdd "sha" resultsOneLine).1.trace =
        pre ++ [Event.topComment (summaryText resultsOneLine
          (prepareComments resultsOneLine (parseDiffPositionMap dtOneAdd)).lineComments.length
          (prepareComments resultsOneLine (parseDiffPositionMap dtOneAdd)).fileComments.length
          (prepareComments resultsOneLine
            (parseDiffPositionMap dtOneAdd)).skippedComments.length)]) :=
  ⟨(lineStage_failures_never_abort oracleReviewErr dtOneAdd "sha" resultsOneLine).1
      "sha" [lineC] initSt,
    (lineStage_failures_never_abort oracleReviewErr dtOneAdd "sha" resultsOneLine).2
      rfl rfl (fun _ => rfl)⟩

/-- Inversion for a successful summary post: the state gained exactly the
one top-level comment event. -/
theorem summary_ok_inv {o : Oracles} {body : String} {s s' : NetSt} {a : Unit}
    (h : submitReviewSummary body o s = (s', Except.ok a)) :
    s' = { s with topIdx := s.topIdx + 1, trace := s.trace ++ [Event.topComment body] } := by
  cases ht : o.topO s.topIdx with
  | ok =>
    have heq : submitReviewSummary body o s = ({ s with topIdx := s.topIdx + 1, trace := s.trace ++ [Event.topComment body] }, Except.ok ()) := by
      simp [submitReviewSummary, topCall, bind_run, pure_run, ht]
    rw [heq] at h
    injection h with h1 _
    exact h1.symm
  | err status =>
    have heq : submitReviewSummary body o s = ({ s with topIdx := s.topIdx + 1, trace := s.trace ++ [Event.topComment body] }, Except.error (PErr.apiError status)) := by
      simp [submitReviewSummary, topCall, bind_run, pure_run, throwM, ht]
    rw [heq] at h
    injection h with _ h2
    exact absurd h2 (by simp)
  | exn =>
    have heq : submitReviewSummary body o s = ({ s with topIdx := s.topIdx + 1, trace := s.trace ++ [Event.topComment body] }, Except.error PErr.netExn) := by
      simp [submitReviewSummary, topCall, bind_run, throwM, ht]
    rw [heq] at h
    injection h with _ h2
    exact absurd h2 (by simp)

/-- C3 (amended): whenever the batch pipeline completes normally, the final
summary comment it posts last reports the PLANNED counts — the lengths of
the planner's line-comment, file-comment and skipped lists — not the
delivered (succeeded/failed) outcomes, which are only accumulated inside
the batching stage and discarded. -/
theorem finalSummary_reports_plan_counts (o : Oracles) (dt sha : String)
    (results : List ReviewResult)
    (h : (runPipeline o dt sha results).2 = .ok ()) :
    ∃ pre, (runPipeline o dt sha results).1.trace =
      pre ++ [Event.topComment (summaryText results
        (prepareComments results (parseDiffPositionMap dt)).lineComments.length
        (prepareComments results (parseDiffPositionMap dt)).fileComments.length
        (prepareComments results (parseDiffPositionMap dt)).skippedComments.length)] := by
  cases hg0 : o.getO 0 with
  | err status =>
    simp [runPipeline, submitBatchReviewComments, getPullRequestDiff, getCall, bind_run,
      throwM, initSt, hg0] at h
  | exn =>
    simp [runPipeline, submitBatchReviewComments, getPullRequestDiff, getCall, bind_run,
      throwM, initSt, hg0] at h
  | ok =>
    cases hg1 : o.getO 1 with
    | err status =>
      simp [runPipeline, submitBatchReviewComments, getPullRequestDiff, getHeadCommitSha,
        getCall, bind_run, pure_run, throwM, initSt, hg0, hg1] at h
    | exn =>
      simp [runPipeline, submitBatchReviewComments, getPullRequestDiff, getHeadCommitSha,
        getCall, bind_run, pure_run, throwM, initSt, hg0, hg1] at h
    | ok =>
      have hA : getPullRequestDiff dt o initSt = (⟨1, 0, 0, [Event.fetchDiff]⟩, .ok dt) := by
        simp [getPullRequestDiff, getCall, bind_run, pure_run, initSt, hg0]
      have hB : getHeadCommitSha sha o ⟨1, 0, 0, [Event.fetchDiff]⟩
          = (⟨2, 0, 0, [Event.fetchDiff, Event.fetchPr]⟩, .ok sha) := by
        simp [getHeadCommitSha, getCall, bind_run, pure_run, hg1]
      rcases hC : lineStage (prepareComments results (parseDiffPositionMap dt)) sha o ⟨2, 0, 0, [Event.fetchDiff, Event.fetchPr]⟩ with ⟨s3, e3 | u3⟩
      · simp only [runPipeline, submitBatchReviewComments, bind_run, hA, hB, hC] at h
        exact absurd h (by simp)
      · cases u3
        rcases hD : fileStage (prepareComments results (parseDiffPositionMap dt)) o s3 with ⟨s4, e4 | u4⟩
        · simp only [runPipeline, submitBatchReviewComments, bind_run, hA, hB, hC, hD] at h
          exact absurd h (by simp)
        · cases u4
          rcases hE : skipStage (prepareComments results (parseDiffPositionMap dt)) o s4 with ⟨s5, e5 | u5⟩
          · simp only [runPipeline, submitBatchReviewComments, bind_run, hA, hB, hC, hD, hE] at h
            exact absurd h (by simp)
          · cases u5
            rcases hF : submitReviewSummary (summaryText results (prepareComments results (parseDiffPositionMap dt)).lineComments.length (prepareComments results (parseDiffPositionMap dt)).fileComments.length (prepareComments results (parseDiffPositionMap dt)).skippedComments.length) o s5 with ⟨s6, e6 | u6⟩
            · simp only [runPipeline, submitBatchReviewComments, submitFinalSummary, bind_run,
                hA, hB, hC, hD, hE, hF] at h
              exact absurd h (by simp)
            · cases u6
              have hs6 := summary_ok_inv hF
              have hrunEq : runPipeline o dt sha results = (s6, Except.ok ()) := by
                simp only [runPipeline, submitBatchReviewComments, submitFinalSummary, bind_run,
                  hA, hB, hC, hD, hE, hF]
              rw [hrunEq, hs6]
              exact ⟨s5.trace, rfl⟩

/-- Witness for C3 (amended) at a concrete input: with every endpoint
accepting, the run over one planned line comment ends with the summary
built from the planned counts. -/
theorem finalSummary_reports_plan_counts_witness :
    ∃ pre, (runPipeline oracleAllOk dtOneAdd "sha" resultsOneLine).1.trace =
      pre ++ [Event.topComment (summaryText resultsOneLine
        (prepareComments resultsOneLine (parseDiffPositionMap dtOneAdd)).lineComments.length
        (prepareComments resultsOneLine (parseDiffPositionMap dtOneAdd)).fileComments.length
        (prepareComments resultsOneLine
          (parseDiffPositionMap dtOneAdd)).skippedComments.length)] :=
  finalSummary_reports_plan_counts oracleAllOk dtOneAdd "sha" resultsOneLine rfl
